import Mathlib

/-!
Verification development for the on-device LLM inference core
(checkpoint loaders, parallel matmul, forward pass, tokenizer, sampler).

All machine floats are modelled as exact rationals; the transcendental
primitives (expf, sqrtf, cosf, sinf, powf) are abstracted as an `Ops`
record of rational functions, so every statement quantifying over `Ops`
holds for any numeric realisation of those primitives.  Flat C arrays are
modelled as total functions `ℕ → ℚ` (indices in units of one float);
writes become functional updates on the written index range, and C code
never reads the model outside the ranges the source writes.
-/

set_option maxHeartbeats 1000000

/-- Record of the transcendental float primitives used by the C code. -/
structure Ops where
  exp : ℚ → ℚ
  sqrt : ℚ → ℚ
  cos : ℚ → ℚ
  sin : ℚ → ℚ
  pow10000 : ℚ → ℚ

/-- Left-to-right accumulation `((0 + f 0) + f 1) + ...`, matching the
order of a C `for` loop accumulating into a single variable. -/
def sumTo (f : ℕ → ℚ) : ℕ → ℚ
  | 0 => 0
  | n + 1 => sumTo f n + f n

/-- Dot product of length `n`, as accumulated by `dsps_dotprod_f32_aes3`
and the scalar classifier loop. -/
def dotn (a b : ℕ → ℚ) (n : ℕ) : ℚ := sumTo (fun j => a j * b j) n

/-- The raw checkpoint header: seven C `int` fields, exactly as stored in
the first `sizeof(Config) = 28` bytes of the file.  `vocab_size` may be
negative (its sign is the shared-classifier flag). -/
structure Header where
  dim : ℤ
  hidden_dim : ℤ
  n_layers : ℤ
  n_heads : ℤ
  n_kv_heads : ℤ
  vocab_size : ℤ
  seq_len : ℤ

/-- The in-memory `Config` after loading (all counts used as loop bounds;
`vocab_size` already replaced by its absolute value). -/
structure Config where
  dim : ℕ
  hidden_dim : ℕ
  n_layers : ℕ
  n_heads : ℕ
  n_kv_heads : ℕ
  vocab_size : ℕ
  seq_len : ℕ
deriving DecidableEq

def head_size (p : Config) : ℕ := p.dim / p.n_heads

def kv_dim (p : Config) : ℕ := p.dim * p.n_kv_heads / p.n_heads

/-- `read_checkpoint`'s header handling (resident loader):
`shared_weights = vocab_size > 0 ? 1 : 0; vocab_size = abs(vocab_size)`. -/
def read_checkpoint_config (h : Header) : Config × Bool :=
  (⟨h.dim.toNat, h.hidden_dim.toNat, h.n_layers.toNat, h.n_heads.toNat,
    h.n_kv_heads.toNat, h.vocab_size.natAbs, h.seq_len.toNat⟩,
   decide (0 < h.vocab_size))

/-- `open_sd_model`'s header handling (streaming loader): the identical
two lines `shared_weights = vocab_size > 0 ? 1 : 0; vocab_size = abs(...)`. -/
def open_sd_model_config (h : Header) : Config × Bool :=
  (⟨h.dim.toNat, h.hidden_dim.toNat, h.n_layers.toNat, h.n_heads.toNat,
    h.n_kv_heads.toNat, h.vocab_size.natAbs, h.seq_len.toNat⟩,
   decide (0 < h.vocab_size))

/-- Result of the resident pointer walk: each tensor's offset from the
start of the weight region, in floats (the C code stores `v4sf*`
pointers; offsets are the pointer differences from `weights_ptr`). -/
structure WeightOffsets where
  token_embedding_table : ℕ
  rms_att_weight : ℕ
  wq : ℕ
  wk : ℕ
  wv : ℕ
  wo : ℕ
  rms_ffn_weight : ℕ
  w1 : ℕ
  w2 : ℕ
  w3 : ℕ
  rms_final_weight : ℕ
  wcls : ℕ
deriving DecidableEq

/-- The resident loader's cumulative pointer walk `memory_map_weights`,
transcribed increment by increment from the source. -/
def memory_map_weights (p : Config) (shared_weights : Bool) : WeightOffsets :=
  let hs := head_size p
  let nl := p.n_layers
  let o0 := 0
  let o1 := o0 + p.vocab_size * p.dim
  let o2 := o1 + nl * p.dim
  let o3 := o2 + nl * p.dim * (p.n_heads * hs)
  let o4 := o3 + nl * p.dim * (p.n_kv_heads * hs)
  let o5 := o4 + nl * p.dim * (p.n_kv_heads * hs)
  let o6 := o5 + nl * (p.n_heads * hs) * p.dim
  let o7 := o6 + nl * p.dim
  let o8 := o7 + nl * p.dim * p.hidden_dim
  let o9 := o8 + nl * p.hidden_dim * p.dim
  let o10 := o9 + nl * p.dim * p.hidden_dim
  let o11 := o10 + p.dim
  let o12 := o11 + p.seq_len * hs / 2
  let o13 := o12 + p.seq_len * hs / 2
  ⟨o0, o1, o2, o3, o4, o5, o6, o7, o8, o9, o10, if shared_weights then o0 else o13⟩

/-- `sizeof(Config)` in bytes. -/
def configBytes : ℕ := 28

/-- Per-layer byte length accumulated by `calculate_layer_offsets`
(`layer_size` in the source), term by term in source order. -/
def layer_size_bytes (p : Config) : ℕ :=
  let hs := head_size p
  p.dim * 4
    + p.dim * (p.n_heads * hs) * 4
    + p.dim * (p.n_kv_heads * hs) * 4
    + p.dim * (p.n_kv_heads * hs) * 4
    + (p.n_heads * hs) * p.dim * 4
    + p.dim * 4
    + p.dim * p.hidden_dim * 4
    + p.hidden_dim * p.dim * 4
    + p.dim * p.hidden_dim * 4

/-- `calculate_layer_offsets`: byte offset of layer `l`'s block, starting
after the header and the token-embedding table and accumulating one
`layer_size` per layer. -/
def layer_offset_bytes (p : Config) : ℕ → ℕ
  | 0 => configBytes + p.vocab_size * p.dim * 4
  | l + 1 => layer_offset_bytes p l + layer_size_bytes p

/-- Per-layer length in floats. -/
def layerFloats (p : Config) : ℕ := layer_size_bytes p / 4

/-- Float index (into the weight region, header excluded) of the start of
layer `l`'s streamed block. -/
def streamingBase (p : Config) (l : ℕ) : ℕ := (layer_offset_bytes p l - configBytes) / 4

/-- The sub-offsets (in floats) at which `load_layer_from_sd` rebinds the
nine per-layer tensor pointers inside the reused layer buffer, in the
order of the source's pointer walk. -/
structure LayerSub where
  rms_att : ℕ
  wq : ℕ
  wk : ℕ
  wv : ℕ
  wo : ℕ
  rms_ffn : ℕ
  w1 : ℕ
  w2 : ℕ
  w3 : ℕ
deriving DecidableEq

/-- `load_layer_from_sd`'s pointer walk over the layer buffer. -/
def load_layer_sub (p : Config) : LayerSub :=
  let hs := head_size p
  let s0 := 0
  let s1 := s0 + p.dim
  let s2 := s1 + p.dim * (p.n_heads * hs)
  let s3 := s2 + p.dim * (p.n_kv_heads * hs)
  let s4 := s3 + p.dim * (p.n_kv_heads * hs)
  let s5 := s4 + (p.n_heads * hs) * p.dim
  let s6 := s5 + p.dim
  let s7 := s6 + p.dim * p.hidden_dim
  let s8 := s7 + p.hidden_dim * p.dim
  ⟨s0, s1, s2, s3, s4, s5, s6, s7, s8⟩

/-- Modelled from the spec: the binary layout described in §4.1 places,
after the embedding table, one contiguous block per layer holding
attention-norm, WQ, WK, WV, WO, FFN-norm, W1, W2, W3 in order; this is
the float offset of layer `l`'s block under that reading. -/
def spec_layer_base (p : Config) (l : ℕ) : ℕ :=
  p.vocab_size * p.dim + l * layerFloats p

/-- Float offset of layer `l`'s attention-norm tensor as the resident
walk assigns it (`rms_att_weight + l*dim`, the indexing used by
`forward`). -/
def resident_att_off (p : Config) (shared : Bool) (l : ℕ) : ℕ :=
  (memory_map_weights p shared).rms_att_weight + l * p.dim

/-- Float offset of layer `l`'s attention-norm tensor as the streaming
table assigns it (start of the layer block; `load_layer_sub` places the
attention norm at sub-offset 0). -/
def streaming_att_off (p : Config) (l : ℕ) : ℕ :=
  streamingBase p l + (load_layer_sub p).rms_att

theorem sumTo_congr {f g : ℕ → ℚ} (n : ℕ) (h : ∀ i, i < n → f i = g i) :
    sumTo f n = sumTo g n := by
  induction n with
  | zero => rfl
  | succ k ih =>
      simp only [sumTo]
      rw [ih (fun i hi => h i (Nat.lt_succ_of_lt hi)), h k (Nat.lt_succ_self k)]

theorem layer_offset_bytes_closed (p : Config) (l : ℕ) :
    layer_offset_bytes p l = configBytes + p.vocab_size * p.dim * 4 + l * layer_size_bytes p := by
  induction l with
  | zero => simp [layer_offset_bytes]
  | succ k ih => simp [layer_offset_bytes, ih]; ring

/-- Sum of the nine per-layer tensor sizes in floats, written with the
same factors as the resident walk's per-layer increments. -/
def residentLayerFloats (p : Config) : ℕ :=
  p.dim + p.dim * (p.n_heads * head_size p)
    + p.dim * (p.n_kv_heads * head_size p) + p.dim * (p.n_kv_heads * head_size p)
    + (p.n_heads * head_size p) * p.dim + p.dim
    + p.dim * p.hidden_dim + p.hidden_dim * p.dim + p.dim * p.hidden_dim

theorem layer_size_bytes_eq (p : Config) : layer_size_bytes p = 4 * residentLayerFloats p := by
  simp only [layer_size_bytes, residentLayerFloats]
  ring

theorem layerFloats_eq (p : Config) : layerFloats p = residentLayerFloats p := by
  simp only [layerFloats, layer_size_bytes_eq]
  exact Nat.mul_div_cancel_left _ (by norm_num)

theorem streamingBase_eq (p : Config) (l : ℕ) :
    streamingBase p l = p.vocab_size * p.dim + l * residentLayerFloats p := by
  simp only [streamingBase, layer_offset_bytes_closed, layer_size_bytes_eq]
  rw [Nat.add_assoc, Nat.add_sub_cancel_left,
      show p.vocab_size * p.dim * 4 + l * (4 * residentLayerFloats p)
         = 4 * (p.vocab_size * p.dim + l * residentLayerFloats p) by ring]
  exact Nat.mul_div_cancel_left _ (by norm_num)

/-- Byte offset from which `open_sd_model` reads the final RMS-norm
weights: end of the last layer's block. -/
def final_rms_offset_bytes (p : Config) : ℕ :=
  layer_offset_bytes p (p.n_layers - 1) + layer_size_bytes p

/-- A two-layer configuration used to exhibit the layout disagreement. -/
def cfg2 : Config := ⟨2, 2, 2, 1, 1, 2, 2⟩

/-- Claim C2, counterexample: with two layers, the resident walk places
layer 1's attention-norm at float offset 6 (kind-grouped layout: right
after layer 0's attention-norm), while the streaming offset table places
it at float offset 36 (per-layer-block layout).  The two loaders do not
compute the same per-layer offsets, and the resident walk does not follow
the spec's per-layer-interleaved layout. -/
theorem c2_counterexample :
    resident_att_off cfg2 true 1 ≠ streaming_att_off cfg2 1 ∧
    resident_att_off cfg2 true 1 ≠ spec_layer_base cfg2 1 ∧
    streaming_att_off cfg2 1 = spec_layer_base cfg2 1 := by
  refine ⟨?_, ?_, ?_⟩ <;> decide

/-- Claim C2 (corrected): the streaming offset table realises the spec's
per-layer-interleaved layout (each layer block at
`emb + l · layerFloats`), the per-layer block length is the sum of the
same nine per-tensor size formulas the resident walk uses, and for a
single-layer checkpoint the two loaders assign identical offsets to
every per-layer tensor and to the final norm; the resident walk itself
groups tensors by kind across layers, so for two or more layers the
assignments differ (see the counterexample). -/
theorem c2_amended (p : Config) (shared : Bool) (h1 : p.n_layers = 1) :
    (∀ m, streaming_att_off p m = spec_layer_base p m) ∧
    layerFloats p = residentLayerFloats p ∧
    (resident_att_off p shared 0 = streaming_att_off p 0 ∧
     (memory_map_weights p shared).wq = streamingBase p 0 + (load_layer_sub p).wq ∧
     (memory_map_weights p shared).wk = streamingBase p 0 + (load_layer_sub p).wk ∧
     (memory_map_weights p shared).wv = streamingBase p 0 + (load_layer_sub p).wv ∧
     (memory_map_weights p shared).wo = streamingBase p 0 + (load_layer_sub p).wo ∧
     (memory_map_weights p shared).rms_ffn_weight = streamingBase p 0 + (load_layer_sub p).rms_ffn ∧
     (memory_map_weights p shared).w1 = streamingBase p 0 + (load_layer_sub p).w1 ∧
     (memory_map_weights p shared).w2 = streamingBase p 0 + (load_layer_sub p).w2 ∧
     (memory_map_weights p shared).w3 = streamingBase p 0 + (load_layer_sub p).w3 ∧
     (memory_map_weights p shared).rms_final_weight
       = (final_rms_offset_bytes p - configBytes) / 4) := by
  have hsb := streamingBase_eq p
  have hfr : (final_rms_offset_bytes p - configBytes) / 4
      = p.vocab_size * p.dim + residentLayerFloats p := by
    simp only [final_rms_offset_bytes, layer_offset_bytes_closed, layer_size_bytes_eq, h1]
    rw [show configBytes + p.vocab_size * p.dim * 4 + (1 - 1) * (4 * residentLayerFloats p)
          + 4 * residentLayerFloats p
        = configBytes + (p.vocab_size * p.dim * 4 + 4 * residentLayerFloats p) by ring,
        Nat.add_sub_cancel_left,
        show p.vocab_size * p.dim * 4 + 4 * residentLayerFloats p
          = 4 * (p.vocab_size * p.dim + residentLayerFloats p) by ring]
    exact Nat.mul_div_cancel_left _ (by norm_num)
  refine ⟨?_, layerFloats_eq p, ?_⟩
  · intro m
    simp [streaming_att_off, load_layer_sub, spec_layer_base, hsb, layerFloats_eq]
  · simp only [resident_att_off, streaming_att_off, memory_map_weights, load_layer_sub,
      hsb, hfr, h1, residentLayerFloats]
    refine ⟨by ring, by ring, by ring, by ring, by ring, by ring, by ring, by ring, by ring, by ring⟩

/-- Witness for `c2_amended` at a concrete single-layer configuration. -/
theorem c2_amended_witness :
    (⟨2, 2, 1, 1, 1, 2, 2⟩ : Config).n_layers = 1 ∧
    resident_att_off ⟨2, 2, 1, 1, 1, 2, 2⟩ false 0 = streaming_att_off ⟨2, 2, 1, 1, 1, 2, 2⟩ 0 :=
  ⟨by decide, (c2_amended ⟨2, 2, 1, 1, 1, 2, 2⟩ false (by decide)).2.2.1⟩

/-- Full `read_checkpoint` header path: resulting `Config` plus the
pointer walk's offsets (`memory_map_weights` called with the decoded
shared flag). -/
def read_checkpoint_weights (h : Header) : Config × WeightOffsets :=
  let cs := read_checkpoint_config h
  (cs.1, memory_map_weights cs.1 cs.2)

/-- A header whose encoded vocabulary size is negative. -/
def hdrNeg : Header := ⟨2, 2, 1, 1, 1, -2, 2⟩

/-- Claim C3, counterexample: for an encoded vocabulary size of −2 the
claim predicts `wcls` aliases the token-embedding table; the code sets
`shared_weights = vocab_size > 0 ? 1 : 0`, so the negative encoding gets
the dedicated classifier block (offset 42 ≠ 0) — the flag's polarity in
the claim is reversed. -/
theorem c3_counterexample :
    ¬(((read_checkpoint_weights hdrNeg).2.wcls
        = (read_checkpoint_weights hdrNeg).2.token_embedding_table) ↔ hdrNeg.vocab_size < 0) := by
  decide

/-- Claim C3 (corrected): `read_checkpoint` stores the absolute value of
the encoded vocabulary size, and `wcls` aliases the token-embedding
table if and only if the encoded vocabulary size was positive; when it
is not positive, `wcls` points to the dedicated classifier block that
follows the final norm and the two skipped rotary-table blocks. -/
theorem c3_amended (h : Header) (hd : 0 < h.dim) :
    (read_checkpoint_weights h).1.vocab_size = h.vocab_size.natAbs ∧
    (((read_checkpoint_weights h).2.wcls
        = (read_checkpoint_weights h).2.token_embedding_table) ↔ 0 < h.vocab_size) ∧
    (h.vocab_size ≤ 0 →
      (read_checkpoint_weights h).2.wcls
        = (read_checkpoint_weights h).2.rms_final_weight + h.dim.toNat
          + h.seq_len.toNat * (h.dim.toNat / h.n_heads.toNat) / 2
          + h.seq_len.toNat * (h.dim.toNat / h.n_heads.toNat) / 2) := by
  have hdt : 0 < h.dim.toNat := by omega
  constructor
  · rfl
  · by_cases hv : 0 < h.vocab_size
    · constructor
      · simp only [read_checkpoint_weights, read_checkpoint_config, memory_map_weights]
        simp [hv]
      · intro hle
        omega
    · have hsh : decide (0 < h.vocab_size) = false := by simp [hv]
      constructor
      · simp only [read_checkpoint_weights, read_checkpoint_config, memory_map_weights, hsh,
          Bool.false_eq_true, if_false]
        constructor
        · intro he
          exfalso
          omega
        · intro hc
          exact absurd hc hv
      · intro _
        simp only [read_checkpoint_weights, read_checkpoint_config, memory_map_weights, hsh,
          Bool.false_eq_true, if_false, head_size]

/-- Witness for `c3_amended` at a concrete header with positive encoded
vocabulary size. -/
theorem c3_amended_witness :
    (0 : ℤ) < (⟨2, 2, 1, 1, 1, 2, 2⟩ : Header).dim ∧
    ((read_checkpoint_weights ⟨2, 2, 1, 1, 1, 2, 2⟩).2.wcls
       = (read_checkpoint_weights ⟨2, 2, 1, 1, 1, 2, 2⟩).2.token_embedding_table
     ↔ (0 : ℤ) < (⟨2, 2, 1, 1, 1, 2, 2⟩ : Header).vocab_size) :=
  ⟨by decide, (c3_amended ⟨2, 2, 1, 1, 1, 2, 2⟩ (by decide)).2.1⟩

/-- The worker task's half of a matrix multiply (`matmul_task`): rows
`[s, e)` of `xout` are overwritten with the row-times-vector dot product;
all other entries keep their previous value. -/
def matmul_task (xout x w : ℕ → ℚ) (n s e : ℕ) : ℕ → ℚ :=
  fun i => if s ≤ i ∧ i < e then dotn (fun j => w (i * n + j)) x n else xout i

/-- `matmul`: the caller computes rows `[0, d/2)` while the worker task,
handed `start = d/2, end = d`, computes rows `[d/2, d)`; the call returns
after both halves are written. -/
def matmul (xout x w : ℕ → ℚ) (n d : ℕ) : ℕ → ℚ :=
  matmul_task (matmul_task xout x w n 0 (d / 2)) x w n (d / 2) d

/-- Single-threaded reference computation: `xout[i] = Σ_{j<n} w[i·n+j]·x[j]`. -/
def matmul_ref (x w : ℕ → ℚ) (n : ℕ) : ℕ → ℚ :=
  fun i => sumTo (fun j => w (i * n + j) * x j) n

theorem matmul_eq (xout x w : ℕ → ℚ) (n d i : ℕ) :
    matmul xout x w n d i = if i < d then matmul_ref x w n i else xout i := by
  by_cases hi : i < d
  · by_cases hlo : i < d / 2
    · simp [matmul, matmul_task, dotn, matmul_ref, hlo, Nat.not_le.mpr hlo, hi]
    · simp [matmul, matmul_task, dotn, matmul_ref, Nat.le_of_not_lt hlo, hi]
  · have h2 : ¬ i < d / 2 := fun hc => hi (lt_of_lt_of_le hc (Nat.div_le_self d 2))
    simp [matmul, matmul_task, hi, h2]

/-- Claim C5 (confirmed): for every row-major weight matrix, input vector
and dimensions, `matmul` overwrites `xout[i]` for every `i < d` with the
reference sum of products `Σ_{j<n} w[i·n+j]·x[j]` — the caller's rows
`[0, d/2)` and the worker's rows `[d/2, d)` together cover every row,
for even and odd `d` alike, including `d = 1`; entries at `i ≥ d` are
left untouched. -/
theorem c5_matmul_correct (xout x w : ℕ → ℚ) (n d i : ℕ) (hi : i < d) :
    matmul xout x w n d i = sumTo (fun j => w (i * n + j) * x j) n := by
  rw [matmul_eq, if_pos hi]
  rfl

/-- Witness for `c5_matmul_correct` with odd `d = 3`, `n = 2`. -/
theorem c5_matmul_correct_witness :
    (2 : ℕ) < 3 ∧
    matmul (fun _ => 0) (fun j => (j : ℚ) + 1) (fun j => (j : ℚ)) 2 3 2
      = sumTo (fun j => ((2 * 2 + j : ℕ) : ℚ) * ((j : ℚ) + 1)) 2 :=
  ⟨by decide, c5_matmul_correct (fun _ => 0) (fun j => (j : ℚ) + 1) (fun j => (j : ℚ)) 2 3 2 (by decide)⟩

/-- `rmsnorm`: `ss = Σ x²/size + 1e-5; o[j] = w[j]·(x[j]/sqrt(ss))`.
The C code writes `o[j]` only for `j < size`; consumers below never read
beyond the written range, so the model extends the formula totally. -/
def rmsnorm (ops : Ops) (x w : ℕ → ℚ) (size : ℕ) : ℕ → ℚ :=
  let ss0 := sumTo (fun j => x j * x j) size
  let ss1 := ss0 / (size : ℚ) + 1 / 100000
  let s := 1 / ops.sqrt ss1
  fun j => w j * (s * x j)

/-- Running maximum of `x[0..n]`, matching the C loop
`max_val = x[0]; for (i = 1; ...) if (x[i] > max_val) ...`. -/
def maxTo (x : ℕ → ℚ) : ℕ → ℚ
  | 0 => x 0
  | i + 1 => if x (i + 1) > maxTo x i then x (i + 1) else maxTo x i

/-- `softmax` over the first `size` entries (max-subtracted exponential
normalisation); entries at `i ≥ size` keep their old value. -/
def softmax (ops : Ops) (x : ℕ → ℚ) (size : ℕ) : ℕ → ℚ :=
  let mx := maxTo x (size - 1)
  let s := sumTo (fun i => ops.exp (x i - mx)) size
  fun i => if i < size then ops.exp (x i - mx) / s else x i

/-- `matmul` writing through a pointer into the middle of a cache buffer
(`matmul(s->k, ...)` with `s->k = cache + base`): entries
`[base, base+d)` receive the rows, everything else is untouched. -/
def matmulAt (cache : ℕ → ℚ) (base : ℕ) (x w : ℕ → ℚ) (n d : ℕ) : ℕ → ℚ :=
  fun idx => if base ≤ idx ∧ idx < base + d then dotn (fun j => w ((idx - base) * n + j)) x n
             else cache idx

/-- One RoPE rotation: the value the loop stores at index `m`, whose
pair base is `i = 2·(m/2)`, with rotation angle `pos / 10000^(hd/hs)`. -/
def ropeRot (ops : Ops) (pos hs : ℕ) (v : ℕ → ℚ) (m : ℕ) : ℚ :=
  let i := 2 * (m / 2)
  let hd := i % hs
  let freq := 1 / ops.pow10000 ((hd : ℚ) / (hs : ℚ))
  let val := (pos : ℚ) * freq
  let fcr := ops.cos val
  let fci := ops.sin val
  if m % 2 = 0 then v m * fcr - v (m + 1) * fci
  else v (m - 1) * fci + v m * fcr

/-- RoPE applied to a buffer: the loop rotates the pair at every even
base `i < bound` (for `q`, `bound = dim`; for the cached `k` slice,
`bound = kv_dim`). -/
def ropeApply (ops : Ops) (pos hs bound : ℕ) (v : ℕ → ℚ) : ℕ → ℚ :=
  fun m => if 2 * (m / 2) < bound then ropeRot ops pos hs v m else v m

/-- RoPE applied through the `s->k` pointer into the key cache at
`base = loff + pos·kv_dim`. -/
def ropeAtBase (ops : Ops) (pos hs bound base : ℕ) (c : ℕ → ℚ) : ℕ → ℚ :=
  fun idx => if base ≤ idx ∧ 2 * ((idx - base) / 2) < bound then
               ropeRot ops pos hs (fun j => c (base + j)) (idx - base)
             else c idx

/-- One layer's bound weight tensors (wheither resident pointers at
per-layer strides or the streamed layer buffer's sub-pointers). -/
structure LayerW where
  rms_att : ℕ → ℚ
  wq : ℕ → ℚ
  wk : ℕ → ℚ
  wv : ℕ → ℚ
  wo : ℕ → ℚ
  rms_ffn : ℕ → ℚ
  w1 : ℕ → ℚ
  w2 : ℕ → ℚ
  w3 : ℕ → ℚ

/-- The mutable state threaded through the layer loop: the residual
stream `x` and the two caches. -/
structure FwdState where
  x : ℕ → ℚ
  kc : ℕ → ℚ
  vc : ℕ → ℚ

/-- The multi-head attention block of `forward`'s layer body: for every
head, score `q` against the cached keys at positions `t ≤ pos`, softmax,
and accumulate the weighted cached values into the slice
`xb[h·hs .. h·hs+hs)`; entries of `xb` beyond `n_heads·hs` keep the
RMS-norm output already in the buffer. -/
def attnBlock (ops : Ops) (p : Config) (pos loff : ℕ) (xb q1 kc vc : ℕ → ℚ) : ℕ → ℚ :=
  fun m =>
    if m < p.n_heads * head_size p then
      let hs := head_size p
      let kvd := kv_dim p
      let kvMul := p.n_heads / p.n_kv_heads
      let h := m / hs
      let i := m % hs
      let attRaw : ℕ → ℚ := fun t =>
        dotn (fun r => q1 (h * hs + r)) (fun r => kc (loff + t * kvd + h / kvMul * hs + r)) hs
          / ops.sqrt (hs : ℚ)
      let att := softmax ops attRaw (pos + 1)
      sumTo (fun t => att t * vc (loff + t * kvd + h / kvMul * hs + i)) (pos + 1)
    else xb m

/-- One iteration of `forward`'s layer loop, transcribed from the
source: attention RMS-norm, Q/K/V projections (K/V written into the
cache slot at `[l, pos]`), RoPE on `q` and on the written K slice,
causal multi-head attention, output projection and residual, FFN
RMS-norm, SwiGLU feed-forward and residual.  Scratch buffers (`q`, `xb`,
`hb`, ...) are fully overwritten before being read, so they appear as
freshly computed functions. -/
def layerStep (ops : Ops) (p : Config) (pos : ℕ) (lw : LayerW) (l : ℕ) (st : FwdState) :
    FwdState :=
  let dim := p.dim
  let kvd := kv_dim p
  let hs := head_size p
  let xb := rmsnorm ops st.x lw.rms_att dim
  let loff := l * p.seq_len * kvd
  let kbase := loff + pos * kvd
  let q0 := matmul (fun _ => 0) xb lw.wq dim dim
  let kc1 := matmulAt st.kc kbase xb lw.wk dim kvd
  let vc1 := matmulAt st.vc kbase xb lw.wv dim kvd
  let q1 := ropeApply ops pos hs dim q0
  let kc2 := ropeAtBase ops pos hs kvd kbase kc1
  let attOut := attnBlock ops p pos loff xb q1 kc2 vc1
  let xb2 := matmul (fun _ => 0) attOut lw.wo dim dim
  let x1 : ℕ → ℚ := fun i => if i < dim then st.x i + xb2 i else st.x i
  let xb3 := rmsnorm ops x1 lw.rms_ffn dim
  let hb := matmul (fun _ => 0) xb3 lw.w1 dim p.hidden_dim
  let hb2 := matmul (fun _ => 0) xb3 lw.w3 dim p.hidden_dim
  let hbS : ℕ → ℚ := fun i =>
    if i < p.hidden_dim then hb i * (1 / (1 + ops.exp (-hb i))) * hb2 i else hb i
  let xb4 := matmul (fun _ => 0) hbS lw.w2 p.hidden_dim dim
  let x2 : ℕ → ℚ := fun i => if i < dim then x1 i + xb4 i else x1 i
  ⟨x2, kc2, vc1⟩

/-- The layer loop: `runLayers ... nl st` applies layers `0, 1, ..., nl-1`
in order. -/
def runLayers (ops : Ops) (p : Config) (pos : ℕ) (lwf : ℕ → LayerW) : ℕ → FwdState → FwdState
  | 0, st => st
  | l + 1, st => layerStep ops p pos (lwf l) l (runLayers ops p pos lwf l st)

/-- Resident-mode per-layer weight views: base pointers from
`memory_map_weights` plus the per-layer strides used in `forward`
(`wq + l*dim*dim`, `wk + l*dim*kv_dim`, `w2 + l*dim*hidden_dim`, ...). -/
def residentLW (p : Config) (shared : Bool) (body : ℕ → ℚ) (l : ℕ) : LayerW :=
  let o := memory_map_weights p shared
  ⟨fun j => body (o.rms_att_weight + l * p.dim + j),
   fun j => body (o.wq + l * p.dim * p.dim + j),
   fun j => body (o.wk + l * p.dim * kv_dim p + j),
   fun j => body (o.wv + l * p.dim * kv_dim p + j),
   fun j => body (o.wo + l * p.dim * p.dim + j),
   fun j => body (o.rms_ffn_weight + l * p.dim + j),
   fun j => body (o.w1 + l * p.dim * p.hidden_dim + j),
   fun j => body (o.w2 + l * p.dim * p.hidden_dim + j),
   fun j => body (o.w3 + l * p.dim * p.hidden_dim + j)⟩

/-- Streaming-mode per-layer weight views: the layer block streamed to
the reusable buffer from `layer_offsets[l]`, rebound at
`load_layer_from_sd`'s sub-offsets. -/
def streamingLW (p : Config) (body : ℕ → ℚ) (l : ℕ) : LayerW :=
  let b := streamingBase p l
  let s := load_layer_sub p
  ⟨fun j => body (b + s.rms_att + j),
   fun j => body (b + s.wq + j),
   fun j => body (b + s.wk + j),
   fun j => body (b + s.wv + j),
   fun j => body (b + s.wo + j),
   fun j => body (b + s.rms_ffn + j),
   fun j => body (b + s.w1 + j),
   fun j => body (b + s.w2 + j),
   fun j => body (b + s.w3 + j)⟩

/-- Resident-mode `forward` (01_llm_inference variant): embedding row
copied from the mapped table, all layers, final RMS-norm, classifier
matmul against `wcls`.  `body` is the weight region of the file (floats
after the 28-byte header); `kc`, `vc` are the cache contents on entry. -/
def forwardResident (ops : Ops) (p : Config) (shared : Bool) (body kc vc : ℕ → ℚ)
    (token pos : ℕ) : ℕ → ℚ :=
  let o := memory_map_weights p shared
  let x0 : ℕ → ℚ := fun j => body (o.token_embedding_table + token * p.dim + j)
  let st := runLayers ops p pos (residentLW p shared body) p.n_layers ⟨x0, kc, vc⟩
  let xf := rmsnorm ops st.x (fun j => body (o.rms_final_weight + j)) p.dim
  matmul (fun _ => 0) xf (fun j => body (o.wcls + j)) p.dim p.vocab_size

/-- Streaming-mode `forward` (01_llm_inference_stories15m variant with
`use_streaming` set): per-token embedding load (fails for an
out-of-range token), per-layer streamed weights, final RMS-norm from the
once-loaded resident buffer, and the classifier fallback that re-streams
every vocabulary row and dots it against `x`. -/
def forwardStreaming (ops : Ops) (p : Config) (body kc vc : ℕ → ℚ) (token pos : ℕ) :
    Option (ℕ → ℚ) :=
  if token < p.vocab_size then
    let x0 : ℕ → ℚ := fun j => body (token * p.dim + j)
    let st := runLayers ops p pos (streamingLW p body) p.n_layers ⟨x0, kc, vc⟩
    let fin : ℕ → ℚ := fun j => body ((final_rms_offset_bytes p - configBytes) / 4 + j)
    let xf := rmsnorm ops st.x fin p.dim
    some (fun i => if i < p.vocab_size then sumTo (fun j => xf j * body (i * p.dim + j)) p.dim
                   else 0)
  else none

/-- A concrete instantiation of the transcendental primitives used to
evaluate counterexamples (`exp 0 = 1`, `sqrt` and `cos` constant 1,
`sin` constant 0 — exact for the zero arguments arising below). -/
def cexOps : Ops := ⟨fun _ => 1, fun _ => 1, fun _ => 1, fun _ => 0, fun _ => 1⟩

/-- Header of the counterexample checkpoint: one layer, dim 2, encoded
vocabulary −2 (so the dedicated-classifier path is taken). -/
def hdrCex : Header := ⟨2, 2, 1, 1, 1, -2, 2⟩

def cfgCex : Config := (read_checkpoint_config hdrCex).1

/-- The counterexample checkpoint's weight region: embedding row 0 is
(1,0), the final norm (floats 36,37) is (1,1), the dedicated classifier
row 0 (floats 42,43) is (5,0), everything else 0. -/
def bodyCex : ℕ → ℚ := fun i =>
  if i = 0 then 1 else if i = 36 then 1 else if i = 37 then 1 else if i = 42 then 5 else 0

def zeroF : ℕ → ℚ := fun _ => 0

/-- Claim C1, counterexample: loading the same well-formed one-layer
checkpoint with a dedicated (non-shared) classifier block, resident and
streaming `forward` disagree on the very first logit of token 0 at
position 0 (streaming yields 1 because its classifier path dots against
the embedding table; resident yields 5 from the dedicated classifier
block). -/
theorem c1_counterexample :
    (forwardStreaming cexOps cfgCex bodyCex zeroF zeroF 0 0).map (fun g => g 0)
      ≠ some (forwardResident cexOps cfgCex (read_checkpoint_config hdrCex).2
                bodyCex zeroF zeroF 0 0 0) := by
  simp only [cfgCex, hdrCex, read_checkpoint_config, Int.reduceToNat, Int.reduceAbs,
    Int.reduceLT, decide_eq_true_eq]
  norm_num [forwardStreaming, forwardResident,
    bodyCex, zeroF, cexOps, runLayers, layerStep, memory_map_weights, residentLW, streamingLW,
    streamingBase, load_layer_sub, final_rms_offset_bytes, layer_offset_bytes, layer_size_bytes,
    configBytes, head_size, kv_dim, rmsnorm, softmax, maxTo, sumTo, dotn, matmul, matmul_task,
    matmulAt, ropeApply, ropeAtBase, ropeRot, Option.map, Int.natAbs_neg, Int.natAbs_ofNat]

theorem lw0_eq (p : Config) (sh : Bool) (body : ℕ → ℚ) (h1 : p.n_layers = 1) :
    streamingLW p body 0 = residentLW p sh body 0 := by
  simp only [streamingLW, residentLW, memory_map_weights, load_layer_sub, streamingBase_eq,
    residentLayerFloats, h1]
  congr 1 <;> funext j <;> congr 1 <;> ring

theorem fin_off_eq (p : Config) (sh : Bool) (h1 : p.n_layers = 1) :
    (final_rms_offset_bytes p - configBytes) / 4
      = (memory_map_weights p sh).rms_final_weight := by
  have hfr : (final_rms_offset_bytes p - configBytes) / 4
      = p.vocab_size * p.dim + residentLayerFloats p := by
    simp only [final_rms_offset_bytes, layer_offset_bytes_closed, layer_size_bytes_eq, h1]
    rw [show configBytes + p.vocab_size * p.dim * 4 + (1 - 1) * (4 * residentLayerFloats p)
          + 4 * residentLayerFloats p
        = configBytes + (p.vocab_size * p.dim * 4 + 4 * residentLayerFloats p) by ring,
        Nat.add_sub_cancel_left,
        show p.vocab_size * p.dim * 4 + 4 * residentLayerFloats p
          = 4 * (p.vocab_size * p.dim + residentLayerFloats p) by ring]
    exact Nat.mul_div_cancel_left _ (by norm_num)
  rw [hfr]
  simp only [memory_map_weights, residentLayerFloats, h1]
  ring

/-- Claim C1 (corrected): the two loaders always decode bit-for-bit
identical `Config` values, and for a checkpoint with a single layer and
the shared-classifier flag set (positive encoded vocabulary size), one
`forward` call in streaming mode returns exactly the resident-mode
logits, for any realisation of the float primitives, any cache contents,
any in-range token and any position.  (For two or more layers, or a
dedicated classifier block, the modes disagree — see the
counterexample.) -/
theorem c1_amended (ops : Ops) (hdr : Header) (body kc vc : ℕ → ℚ) (token pos : ℕ)
    (h1 : (read_checkpoint_config hdr).1.n_layers = 1)
    (hsh : 0 < hdr.vocab_size)
    (htok : token < (read_checkpoint_config hdr).1.vocab_size) :
    open_sd_model_config hdr = read_checkpoint_config hdr ∧
    forwardStreaming ops (read_checkpoint_config hdr).1 body kc vc token pos
      = some (forwardResident ops (read_checkpoint_config hdr).1 (read_checkpoint_config hdr).2
                body kc vc token pos) := by
  have hsh2 : (read_checkpoint_config hdr).2 = true := by
    simp [read_checkpoint_config, hsh]
  refine ⟨rfl, ?_⟩
  rw [hsh2]
  set p := (read_checkpoint_config hdr).1 with hp
  have htok0 : (memory_map_weights p true).token_embedding_table = 0 := by
    simp [memory_map_weights]
  have hwcls : (memory_map_weights p true).wcls = 0 := by
    simp [memory_map_weights]
  simp only [forwardStreaming, forwardResident, if_pos htok, htok0, hwcls]
  have hx0 : (fun j => body (token * p.dim + j))
      = (fun j => body (0 + token * p.dim + j)) := by
    funext j
    norm_num
  have hfin : (fun j => body ((final_rms_offset_bytes p - configBytes) / 4 + j))
      = (fun j => body ((memory_map_weights p true).rms_final_weight + j)) := by
    funext j
    rw [fin_off_eq p true h1]
  rw [h1, hx0, hfin]
  simp only [runLayers]
  rw [lw0_eq p true body h1]
  refine congrArg some ?_
  funext i
  rw [matmul_eq]
  by_cases hi : i < p.vocab_size
  · rw [if_pos hi, if_pos hi]
    unfold matmul_ref
    exact sumTo_congr p.dim (fun j _ => by simp [mul_comm])
  · rw [if_neg hi, if_neg hi]

/-- Witness for `c1_amended`: a concrete single-layer shared-classifier
header, token 1, position 0. -/
theorem c1_amended_witness :
    (read_checkpoint_config ⟨2, 2, 1, 1, 1, 2, 2⟩).1.n_layers = 1 ∧
    forwardStreaming cexOps (read_checkpoint_config ⟨2, 2, 1, 1, 1, 2, 2⟩).1
        (fun i => (i : ℚ)) zeroF zeroF 1 0
      = some (forwardResident cexOps (read_checkpoint_config ⟨2, 2, 1, 1, 1, 2, 2⟩).1
                (read_checkpoint_config ⟨2, 2, 1, 1, 1, 2, 2⟩).2 (fun i => (i : ℚ)) zeroF zeroF 1 0) :=
  ⟨by decide,
   (c1_amended cexOps ⟨2, 2, 1, 1, 1, 2, 2⟩ (fun i => (i : ℚ)) zeroF zeroF 1 0
      (by decide) (by decide) (by decide)).2⟩

/-- Two cache buffers agree at every entry belonging to a position
`t ≤ pos` of any layer (entries at positions `> pos` are unconstrained). -/
def cacheAgree (p : Config) (pos : ℕ) (c1 c2 : ℕ → ℚ) : Prop :=
  ∀ l, l < p.n_layers → ∀ j, j < (pos + 1) * kv_dim p →
    c1 (l * p.seq_len * kv_dim p + j) = c2 (l * p.seq_len * kv_dim p + j)

theorem two_mul_div_two_lt {b m : ℕ} (hb : b % 2 = 0) : 2 * (m / 2) < b ↔ m < b := by
  omega

theorem ropeRot_congr (ops : Ops) (pos hs : ℕ) {f g : ℕ → ℚ} {bound m : ℕ}
    (hb : bound % 2 = 0) (hm : m < bound) (h : ∀ r, r < bound → f r = g r) :
    ropeRot ops pos hs f m = ropeRot ops pos hs g m := by
  simp only [ropeRot]
  by_cases hm2 : m % 2 = 0
  · rw [if_pos hm2, if_pos hm2, h m hm, h (m + 1) (by omega)]
  · rw [if_neg hm2, if_neg hm2, h (m - 1) (by omega), h m hm]

theorem matmulAt_in (c : ℕ → ℚ) (base : ℕ) (x w : ℕ → ℚ) (n d j : ℕ) (hj : j < d) :
    matmulAt c base x w n d (base + j) = dotn (fun r => w (j * n + r)) x n := by
  have hcond : base ≤ base + j ∧ base + j < base + d := ⟨Nat.le_add_right _ _, by omega⟩
  simp [matmulAt, hcond]

theorem matmulAt_out (c : ℕ → ℚ) (base : ℕ) (x w : ℕ → ℚ) (n d idx : ℕ)
    (h : ¬(base ≤ idx ∧ idx < base + d)) :
    matmulAt c base x w n d idx = c idx := by
  simp [matmulAt, h]

theorem ropeAtBase_in (ops : Ops) (pos hs bound base : ℕ) (c : ℕ → ℚ) (j : ℕ)
    (hb : bound % 2 = 0) (hj : j < bound) :
    ropeAtBase ops pos hs bound base c (base + j)
      = ropeRot ops pos hs (fun r => c (base + r)) j := by
  simp only [ropeAtBase, Nat.add_sub_cancel_left]
  rw [if_pos ⟨Nat.le_add_right base j, (two_mul_div_two_lt hb).mpr hj⟩]

theorem ropeAtBase_out (ops : Ops) (pos hs bound base : ℕ) (c : ℕ → ℚ) (idx : ℕ)
    (h : ¬(base ≤ idx ∧ 2 * ((idx - base) / 2) < bound)) :
    ropeAtBase ops pos hs bound base c idx = c idx := by
  simp only [ropeAtBase, if_neg h]

theorem maxTo_congr {f g : ℕ → ℚ} (n : ℕ) (h : ∀ i, i ≤ n → f i = g i) :
    maxTo f n = maxTo g n := by
  induction n with
  | zero => exact h 0 (Nat.le_refl 0)
  | succ k ih =>
      simp only [maxTo]
      rw [ih (fun i hi => h i (Nat.le_succ_of_le hi)), h (k + 1) (Nat.le_refl _)]

theorem softmax_congr (ops : Ops) {f g : ℕ → ℚ} (size : ℕ)
    (h : ∀ i, i < size → f i = g i) (hsz : 0 < size) :
    ∀ t, t < size → softmax ops f size t = softmax ops g size t := by
  intro t ht
  have hmax : maxTo f (size - 1) = maxTo g (size - 1) :=
    maxTo_congr _ (fun i hi => h i (by omega))
  have hsum : sumTo (fun i => ops.exp (f i - maxTo f (size - 1))) size
      = sumTo (fun i => ops.exp (g i - maxTo g (size - 1))) size :=
    sumTo_congr _ (fun i hi => by rw [h i hi, hmax])
  simp only [softmax, if_pos ht]
  rw [hsum, h t ht, hmax]

theorem attnBlock_congr (ops : Ops) (p : Config) (pos loff : ℕ) (xb q1 : ℕ → ℚ)
    {kcA kcB vcA vcB : ℕ → ℚ}
    (hkvd : kv_dim p = head_size p * p.n_kv_heads)
    (hmul : p.n_heads / p.n_kv_heads * p.n_kv_heads = p.n_heads)
    (hread : ∀ j, j < (pos + 1) * kv_dim p → kcA (loff + j) = kcB (loff + j))
    (hreadv : ∀ j, j < (pos + 1) * kv_dim p → vcA (loff + j) = vcB (loff + j)) :
    attnBlock ops p pos loff xb q1 kcA vcA = attnBlock ops p pos loff xb q1 kcB vcB := by
  funext m
  simp only [attnBlock]
  by_cases hm : m < p.n_heads * head_size p
  · rw [if_pos hm, if_pos hm]
    have hprod : 0 < p.n_heads * head_size p := lt_of_le_of_lt (Nat.zero_le m) hm
    have hs0 : 0 < head_size p := by
      rcases Nat.eq_zero_or_pos (head_size p) with h0 | h0
      · rw [h0, Nat.mul_zero] at hprod
        exact absurd hprod (lt_irrefl 0)
      · exact h0
    have hnh0 : 0 < p.n_heads := by
      rcases Nat.eq_zero_or_pos p.n_heads with h0 | h0
      · rw [h0, Nat.zero_mul] at hprod
        exact absurd hprod (lt_irrefl 0)
      · exact h0
    have hkm0 : 0 < p.n_heads / p.n_kv_heads := by
      rcases Nat.eq_zero_or_pos (p.n_heads / p.n_kv_heads) with h0 | h0
      · rw [h0, Nat.zero_mul] at hmul
        omega
      · exact h0
    have hh : m / head_size p < p.n_heads := by
      rw [Nat.div_lt_iff_lt_mul hs0]
      exact hm
    have hhd : m / head_size p / (p.n_heads / p.n_kv_heads) < p.n_kv_heads := by
      rw [Nat.div_lt_iff_lt_mul hkm0, Nat.mul_comm, hmul]
      exact hh
    have hslice : ∀ r, r < head_size p →
        m / head_size p / (p.n_heads / p.n_kv_heads) * head_size p + r < kv_dim p := by
      intro r hr
      have h2 : (m / head_size p / (p.n_heads / p.n_kv_heads) + 1) * head_size p
          ≤ p.n_kv_heads * head_size p := Nat.mul_le_mul_right _ hhd
      have h3 : m / head_size p / (p.n_heads / p.n_kv_heads) * head_size p + head_size p
          ≤ p.n_kv_heads * head_size p := by
        calc m / head_size p / (p.n_heads / p.n_kv_heads) * head_size p + head_size p
            = (m / head_size p / (p.n_heads / p.n_kv_heads) + 1) * head_size p := by ring
          _ ≤ p.n_kv_heads * head_size p := h2
      rw [hkvd, Nat.mul_comm (head_size p)]
      omega
    have hidx : ∀ t r, t ≤ pos → r < head_size p →
        t * kv_dim p + m / head_size p / (p.n_heads / p.n_kv_heads) * head_size p + r
          < (pos + 1) * kv_dim p := by
      intro t r ht hr
      have h1 := hslice r hr
      have h4 : (t + 1) * kv_dim p ≤ (pos + 1) * kv_dim p :=
        Nat.mul_le_mul_right _ (by omega)
      have h5 : (t + 1) * kv_dim p = t * kv_dim p + kv_dim p := by ring
      omega
    have hattRaw : ∀ t, t < pos + 1 →
        dotn (fun r => q1 (m / head_size p * head_size p + r))
            (fun r => kcA (loff + t * kv_dim p
              + m / head_size p / (p.n_heads / p.n_kv_heads) * head_size p + r))
            (head_size p) / ops.sqrt ((head_size p : ℕ) : ℚ)
        = dotn (fun r => q1 (m / head_size p * head_size p + r))
            (fun r => kcB (loff + t * kv_dim p
              + m / head_size p / (p.n_heads / p.n_kv_heads) * head_size p + r))
            (head_size p) / ops.sqrt ((head_size p : ℕ) : ℚ) := by
      intro t ht
      congr 1
      unfold dotn
      apply sumTo_congr
      intro r hr
      have he : loff + t * kv_dim p
            + m / head_size p / (p.n_heads / p.n_kv_heads) * head_size p + r
          = loff + (t * kv_dim p
            + m / head_size p / (p.n_heads / p.n_kv_heads) * head_size p + r) := by ring
      have hr2 := hread _ (hidx t r (by omega) hr)
      simp only [he, hr2]
    apply sumTo_congr
    intro t ht
    have hsm := softmax_congr ops (pos + 1) hattRaw (Nat.succ_pos pos) t ht
    rw [hsm]
    have he : loff + t * kv_dim p
          + m / head_size p / (p.n_heads / p.n_kv_heads) * head_size p + m % head_size p
        = loff + (t * kv_dim p
          + m / head_size p / (p.n_heads / p.n_kv_heads) * head_size p + m % head_size p) := by
      ring
    have hv2 := hreadv _ (hidx t (m % head_size p) (by omega) (Nat.mod_lt m hs0))
    simp only [he, hv2]
  · rw [if_neg hm, if_neg hm]

theorem kcStep_agree (ops : Ops) (p : Config) (pos l : ℕ) (xb wk : ℕ → ℚ) {kc1 kc2 : ℕ → ℚ}
    (heven : kv_dim p % 2 = 0) (hk : cacheAgree p pos kc1 kc2) :
    cacheAgree p pos
      (ropeAtBase ops pos (head_size p) (kv_dim p)
        (l * p.seq_len * kv_dim p + pos * kv_dim p)
        (matmulAt kc1 (l * p.seq_len * kv_dim p + pos * kv_dim p) xb wk p.dim (kv_dim p)))
      (ropeAtBase ops pos (head_size p) (kv_dim p)
        (l * p.seq_len * kv_dim p + pos * kv_dim p)
        (matmulAt kc2 (l * p.seq_len * kv_dim p + pos * kv_dim p) xb wk p.dim (kv_dim p))) := by
  intro l' hl' j hj
  by_cases hin : l * p.seq_len * kv_dim p + pos * kv_dim p ≤ l' * p.seq_len * kv_dim p + j ∧
      l' * p.seq_len * kv_dim p + j - (l * p.seq_len * kv_dim p + pos * kv_dim p) < kv_dim p
  · obtain ⟨h1, h2⟩ := hin
    have hidxe : l' * p.seq_len * kv_dim p + j
        = l * p.seq_len * kv_dim p + pos * kv_dim p
          + (l' * p.seq_len * kv_dim p + j - (l * p.seq_len * kv_dim p + pos * kv_dim p)) := by
      omega
    rw [hidxe, ropeAtBase_in _ _ _ _ _ _ _ heven h2, ropeAtBase_in _ _ _ _ _ _ _ heven h2]
    apply ropeRot_congr ops pos (head_size p) heven h2
    intro r hr
    simp only [matmulAt_in kc1 _ xb wk p.dim (kv_dim p) r hr,
      matmulAt_in kc2 _ xb wk p.dim (kv_dim p) r hr]
  · have hout : ¬(l * p.seq_len * kv_dim p + pos * kv_dim p ≤ l' * p.seq_len * kv_dim p + j ∧
        2 * ((l' * p.seq_len * kv_dim p + j
          - (l * p.seq_len * kv_dim p + pos * kv_dim p)) / 2) < kv_dim p) := by
      intro hc
      exact hin ⟨hc.1, by omega⟩
    have hout2 : ¬(l * p.seq_len * kv_dim p + pos * kv_dim p ≤ l' * p.seq_len * kv_dim p + j ∧
        l' * p.seq_len * kv_dim p + j < l * p.seq_len * kv_dim p + pos * kv_dim p + kv_dim p) := by
      intro hc
      exact hin ⟨hc.1, by omega⟩
    rw [ropeAtBase_out _ _ _ _ _ _ _ hout, ropeAtBase_out _ _ _ _ _ _ _ hout,
      matmulAt_out _ _ _ _ _ _ _ hout2, matmulAt_out _ _ _ _ _ _ _ hout2]
    exact hk l' hl' j hj

theorem vcStep_agree (p : Config) (pos l : ℕ) (xb wv : ℕ → ℚ) {vc1 vc2 : ℕ → ℚ}
    (hv : cacheAgree p pos vc1 vc2) :
    cacheAgree p pos
      (matmulAt vc1 (l * p.seq_len * kv_dim p + pos * kv_dim p) xb wv p.dim (kv_dim p))
      (matmulAt vc2 (l * p.seq_len * kv_dim p + pos * kv_dim p) xb wv p.dim (kv_dim p)) := by
  intro l' hl' j hj
  by_cases hin : l * p.seq_len * kv_dim p + pos * kv_dim p ≤ l' * p.seq_len * kv_dim p + j ∧
      l' * p.seq_len * kv_dim p + j < l * p.seq_len * kv_dim p + pos * kv_dim p + kv_dim p
  · have h2 : l' * p.seq_len * kv_dim p + j
        - (l * p.seq_len * kv_dim p + pos * kv_dim p) < kv_dim p := by omega
    have hidxe : l' * p.seq_len * kv_dim p + j
        = l * p.seq_len * kv_dim p + pos * kv_dim p
          + (l' * p.seq_len * kv_dim p + j - (l * p.seq_len * kv_dim p + pos * kv_dim p)) := by
      omega
    rw [hidxe]
    simp only [matmulAt_in vc1 _ xb wv p.dim (kv_dim p) _ h2,
      matmulAt_in vc2 _ xb wv p.dim (kv_dim p) _ h2]
  · rw [matmulAt_out _ _ _ _ _ _ _ hin, matmulAt_out _ _ _ _ _ _ _ hin]
    exact hv l' hl' j hj

theorem layerStep_causal (ops : Ops) (p : Config) (pos : ℕ) (lw : LayerW) (l : ℕ)
    (x kc1 vc1 kc2 vc2 : ℕ → ℚ)
    (hkvd : kv_dim p = head_size p * p.n_kv_heads)
    (hmul : p.n_heads / p.n_kv_heads * p.n_kv_heads = p.n_heads)
    (heven : kv_dim p % 2 = 0)
    (hl : l < p.n_layers)
    (hk : cacheAgree p pos kc1 kc2) (hv : cacheAgree p pos vc1 vc2) :
    (layerStep ops p pos lw l ⟨x, kc1, vc1⟩).x = (layerStep ops p pos lw l ⟨x, kc2, vc2⟩).x ∧
    cacheAgree p pos (layerStep ops p pos lw l ⟨x, kc1, vc1⟩).kc
      (layerStep ops p pos lw l ⟨x, kc2, vc2⟩).kc ∧
    cacheAgree p pos (layerStep ops p pos lw l ⟨x, kc1, vc1⟩).vc
      (layerStep ops p pos lw l ⟨x, kc2, vc2⟩).vc := by
  have hkstep := kcStep_agree ops p pos l (rmsnorm ops x lw.rms_att p.dim) lw.wk heven hk
  have hvstep := vcStep_agree p pos l (rmsnorm ops x lw.rms_att p.dim) lw.wv hv
  have hatt := attnBlock_congr ops p pos (l * p.seq_len * kv_dim p)
    (rmsnorm ops x lw.rms_att p.dim)
    (ropeApply ops pos (head_size p) p.dim
      (matmul (fun _ => 0) (rmsnorm ops x lw.rms_att p.dim) lw.wq p.dim p.dim))
    hkvd hmul (fun j hj => hkstep l hl j hj) (fun j hj => hvstep l hl j hj)
  refine ⟨?_, hkstep, hvstep⟩
  simp only [layerStep]
  rw [hatt]

theorem runLayers_causal (ops : Ops) (p : Config) (pos : ℕ) (lwf : ℕ → LayerW)
    (hkvd : kv_dim p = head_size p * p.n_kv_heads)
    (hmul : p.n_heads / p.n_kv_heads * p.n_kv_heads = p.n_heads)
    (heven : kv_dim p % 2 = 0) :
    ∀ nl, nl ≤ p.n_layers → ∀ x kc1 vc1 kc2 vc2,
      cacheAgree p pos kc1 kc2 → cacheAgree p pos vc1 vc2 →
      (runLayers ops p pos lwf nl ⟨x, kc1, vc1⟩).x
        = (runLayers ops p pos lwf nl ⟨x, kc2, vc2⟩).x ∧
      cacheAgree p pos (runLayers ops p pos lwf nl ⟨x, kc1, vc1⟩).kc
        (runLayers ops p pos lwf nl ⟨x, kc2, vc2⟩).kc ∧
      cacheAgree p pos (runLayers ops p pos lwf nl ⟨x, kc1, vc1⟩).vc
        (runLayers ops p pos lwf nl ⟨x, kc2, vc2⟩).vc := by
  intro nl
  induction nl with
  | zero => exact fun _ x kc1 vc1 kc2 vc2 hk hv => ⟨rfl, hk, hv⟩
  | succ k ih =>
      intro hle x kc1 vc1 kc2 vc2 hk hv
      obtain ⟨hx, hkc, hvc⟩ := ih (by omega) x kc1 vc1 kc2 vc2 hk hv
      have hs2 : runLayers ops p pos lwf k ⟨x, kc2, vc2⟩
          = ⟨(runLayers ops p pos lwf k ⟨x, kc1, vc1⟩).x,
             (runLayers ops p pos lwf k ⟨x, kc2, vc2⟩).kc,
             (runLayers ops p pos lwf k ⟨x, kc2, vc2⟩).vc⟩ := by
        rw [hx]
      have hstep := layerStep_causal ops p pos (lwf k) k
        (runLayers ops p pos lwf k ⟨x, kc1, vc1⟩).x
        (runLayers ops p pos lwf k ⟨x, kc1, vc1⟩).kc
        (runLayers ops p pos lwf k ⟨x, kc1, vc1⟩).vc
        (runLayers ops p pos lwf k ⟨x, kc2, vc2⟩).kc
        (runLayers ops p pos lwf k ⟨x, kc2, vc2⟩).vc
        hkvd hmul heven (by omega) hkc hvc
      simp only [runLayers]
      rw [hs2]
      exact hstep

/-- Claim C7 (confirmed): for a valid configuration (head count dividing
the embedding dimension, KV-head count dividing the head count, even
head size) and any position `pos < seq_len`, the logits of
`forward(transformer, token, pos)` are unaffected by key/value-cache
contents at positions strictly greater than `pos`: two runs whose caches
agree at every entry of every position `≤ pos` (and agree on all other
inputs) produce identical logits, for every realisation of the float
primitives — attention only reads cache entries at times `t ≤ pos`. -/
theorem c7_attention_causality (ops : Ops) (p : Config) (shared : Bool) (body : ℕ → ℚ)
    (token pos : ℕ) (kc1 vc1 kc2 vc2 : ℕ → ℚ)
    (hhs : head_size p * p.n_heads = p.dim)
    (hmul : p.n_heads / p.n_kv_heads * p.n_kv_heads = p.n_heads)
    (hnh : 0 < p.n_heads)
    (hhe : head_size p % 2 = 0)
    (hpos : pos < p.seq_len)
    (hk : cacheAgree p pos kc1 kc2) (hv : cacheAgree p pos vc1 vc2) :
    forwardResident ops p shared body kc1 vc1 token pos
      = forwardResident ops p shared body kc2 vc2 token pos := by
  have hkvd : kv_dim p = head_size p * p.n_kv_heads := by
    unfold kv_dim
    rw [← hhs,
      show head_size p * p.n_heads * p.n_kv_heads
        = head_size p * p.n_kv_heads * p.n_heads by ring]
    exact Nat.mul_div_cancel _ hnh
  have heven : kv_dim p % 2 = 0 := by
    obtain ⟨c, hc⟩ := Nat.dvd_of_mod_eq_zero hhe
    rw [hkvd, hc, Nat.mul_assoc]
    exact Nat.mul_mod_right 2 _
  obtain ⟨hx, _, _⟩ := runLayers_causal ops p pos (residentLW p shared body) hkvd hmul heven
    p.n_layers (Nat.le_refl _)
    (fun j => body ((memory_map_weights p shared).token_embedding_table + token * p.dim + j))
    kc1 vc1 kc2 vc2 hk hv
  simp only [forwardResident]
  rw [hx]

def pW : Config := ⟨2, 2, 1, 1, 1, 2, 2⟩

/-- A cache whose entries beyond position 0 (indices ≥ kv_dim = 2) hold
arbitrary garbage. -/
def cacheW : ℕ → ℚ := fun idx => if idx < 2 then 0 else 7

/-- Witness for `c7_attention_causality`: a zeroed cache versus a cache
whose position-1 entries are 7 produce identical logits at position 0. -/
theorem c7_attention_causality_witness :
    head_size pW * pW.n_heads = pW.dim ∧
    forwardResident cexOps pW true (fun i => (i : ℚ)) zeroF zeroF 1 0
      = forwardResident cexOps pW true (fun i => (i : ℚ)) cacheW cacheW 1 0 := by
  have hagree : cacheAgree pW 0 zeroF cacheW := by
    intro l hl j hj
    have hnl : pW.n_layers = 1 := rfl
    have hkv : kv_dim pW = 2 := rfl
    rw [hkv] at hj
    have hl0 : l = 0 := by omega
    subst hl0
    have hidx : 0 * pW.seq_len * kv_dim pW + j = j := by
      simp
    rw [hidx]
    have hj2 : j < 2 := by omega
    simp [zeroF, cacheW, hj2]
  exact ⟨by decide,
    c7_attention_causality cexOps pW true (fun i => (i : ℚ)) 1 0 zeroF zeroF cacheW cacheW
      (by decide) (by decide) (by decide) (by decide) (by decide) hagree hagree⟩

/-- Which buffer a streaming-mode weight pointer refers to (pointer
identity, abstracted from raw addresses). -/
inductive WPtr where
  | embBuf : WPtr
  | finalBuf : WPtr
  | layerBuf : ℕ → WPtr
deriving DecidableEq

/-- The streaming session state built by `open_sd_model`: the open
backing file, the reusable layer buffer, the single-token embedding
buffer, the dedicated final-norm buffer, and where the persistent weight
pointers point. -/
structure SDModel where
  config : Config
  shared : Bool
  fileData : ℕ → ℚ
  fileOpen : Bool
  use_streaming : Bool
  layerData : ℕ → ℚ
  embData : ℕ → ℚ
  finalData : ℕ → ℚ
  token_embedding_table : WPtr
  rms_final_weight : WPtr
  wcls : WPtr

/-- `open_sd_model`: reads the header, allocates the layer and embedding
buffers, points `token_embedding_table` at the embedding buffer, reads
the final RMS-norm weights once into a dedicated buffer, and then sets
`wcls = token_embedding_table` (the embedding buffer) regardless of the
shared-weights flag. -/
def open_sd_model (h : Header) (body : ℕ → ℚ) : SDModel :=
  let cs := open_sd_model_config h
  { config := cs.1
    shared := cs.2
    fileData := body
    fileOpen := true
    use_streaming := true
    layerData := fun _ => 0
    embData := fun _ => 0
    finalData := fun j =>
      if j < cs.1.dim then body ((final_rms_offset_bytes cs.1 - configBytes) / 4 + j) else 0
    token_embedding_table := WPtr.embBuf
    rms_final_weight := WPtr.finalBuf
    wcls := WPtr.embBuf }

/-- `load_layer_from_sd`: fails (leaving the state unchanged) when
streaming is inactive, the file is not open, or the layer index is
outside `[0, n_layers)`; otherwise reads the layer block into the
reusable layer buffer. -/
def load_layer_from_sd (m : SDModel) (layer : ℤ) : Bool × SDModel :=
  if ¬ m.use_streaming ∨ ¬ m.fileOpen then (false, m)
  else if layer < 0 ∨ (m.config.n_layers : ℤ) ≤ layer then (false, m)
  else (true, { m with layerData := fun j =>
    (if j < layerFloats m.config then m.fileData (streamingBase m.config layer.toNat + j)
     else m.layerData j) })

/-- `load_token_embedding`: fails (leaving the state unchanged) when
streaming is inactive, the file is not open, or the token index is
outside `[0, vocab_size)`; otherwise reads one embedding row into the
embedding buffer. -/
def load_token_embedding (m : SDModel) (token : ℤ) : Bool × SDModel :=
  if ¬ m.use_streaming ∨ ¬ m.fileOpen then (false, m)
  else if token < 0 ∨ (m.config.vocab_size : ℤ) ≤ token then (false, m)
  else (true, { m with embData := fun j =>
    (if j < m.config.dim then m.fileData (token.toNat * m.config.dim + j) else m.embData j) })

/-- Claim C4, counterexample: opening a checkpoint whose shared-weights
flag is NOT set (encoded vocabulary −2), `open_sd_model` still points
`wcls` at the per-token embedding buffer — not at a dedicated buffer
holding the checkpoint's classifier block. -/
theorem c4_counterexample :
    (open_sd_model hdrNeg bodyCex).shared = false ∧
    (open_sd_model hdrNeg bodyCex).wcls = WPtr.embBuf :=
  ⟨rfl, rfl⟩

/-- Claim C4 (corrected): after `open_sd_model` succeeds, only the
final-norm weights are read once into a dedicated resident buffer
(holding exactly the checkpoint's final-norm block); `wcls` is bound to
the per-token embedding buffer for every checkpoint — shared flag or
not — and neither subsequent layer loads nor token-embedding loads
rebind `wcls` or touch the final-norm buffer (the classifier logits are
instead recomputed per token by re-streaming each vocabulary embedding
row, see `forwardStreaming`). -/
theorem c4_amended (h : Header) (body : ℕ → ℚ) :
    (open_sd_model h body).wcls = WPtr.embBuf ∧
    (open_sd_model h body).rms_final_weight = WPtr.finalBuf ∧
    (∀ j, j < (open_sd_model h body).config.dim →
      (open_sd_model h body).finalData j
        = body ((final_rms_offset_bytes (open_sd_model h body).config - configBytes) / 4 + j)) ∧
    (∀ layer, (load_layer_from_sd (open_sd_model h body) layer).2.wcls = WPtr.embBuf ∧
      (load_layer_from_sd (open_sd_model h body) layer).2.finalData
        = (open_sd_model h body).finalData) ∧
    (∀ token, (load_token_embedding (open_sd_model h body) token).2.wcls = WPtr.embBuf ∧
      (load_token_embedding (open_sd_model h body) token).2.finalData
        = (open_sd_model h body).finalData) := by
  refine ⟨rfl, rfl, ?_, ?_, ?_⟩
  · intro j hj
    have hj2 : j < (open_sd_model_config h).1.dim := hj
    simp only [open_sd_model, if_pos hj2]
  · intro layer
    simp only [load_layer_from_sd]
    split
    · exact ⟨rfl, rfl⟩
    · split
      · exact ⟨rfl, rfl⟩
      · exact ⟨rfl, rfl⟩
  · intro token
    simp only [load_token_embedding]
    split
    · exact ⟨rfl, rfl⟩
    · split
      · exact ⟨rfl, rfl⟩
      · exact ⟨rfl, rfl⟩

/-- Witness for `c4_amended` at a concrete non-shared header, reading
out the final-norm buffer's first entry. -/
theorem c4_amended_witness :
    (0 : ℕ) < (open_sd_model ⟨2, 2, 1, 1, 1, -3, 2⟩ bodyCex).config.dim ∧
    (open_sd_model ⟨2, 2, 1, 1, 1, -3, 2⟩ bodyCex).finalData 0
      = bodyCex ((final_rms_offset_bytes (open_sd_model ⟨2, 2, 1, 1, 1, -3, 2⟩ bodyCex).config
          - configBytes) / 4 + 0) :=
  ⟨by decide, (c4_amended ⟨2, 2, 1, 1, 1, -3, 2⟩ bodyCex).2.2.1 0 (by decide)⟩

/-- Claim C10 (confirmed): `load_layer_from_sd` returns failure and
leaves the whole session state (buffers and weight bindings) unchanged
whenever streaming is inactive, the backing file is not open, or the
layer index lies outside `[0, n_layers)`; likewise `load_token_embedding`
fails and leaves the state (in particular the embedding buffer)
unchanged for every token index outside `[0, vocab_size)`. -/
theorem c10_load_guards (m : SDModel) (layer token : ℤ) :
    ((¬ m.use_streaming ∨ ¬ m.fileOpen ∨ layer < 0 ∨ (m.config.n_layers : ℤ) ≤ layer) →
      load_layer_from_sd m layer = (false, m)) ∧
    ((¬ m.use_streaming ∨ ¬ m.fileOpen ∨ token < 0 ∨ (m.config.vocab_size : ℤ) ≤ token) →
      load_token_embedding m token = (false, m)) := by
  constructor
  · intro h
    rcases h with h | h | h | h
    · simp [load_layer_from_sd, h]
    · simp [load_layer_from_sd, h]
    · simp only [load_layer_from_sd]
      split
      · rfl
      · rw [if_pos (Or.inl h)]
    · simp only [load_layer_from_sd]
      split
      · rfl
      · rw [if_pos (Or.inr h)]
  · intro h
    rcases h with h | h | h | h
    · simp [load_token_embedding, h]
    · simp [load_token_embedding, h]
    · simp only [load_token_embedding]
      split
      · rfl
      · rw [if_pos (Or.inl h)]
    · simp only [load_token_embedding]
      split
      · rfl
      · rw [if_pos (Or.inr h)]

/-- Witness for `c10_load_guards`: a freshly opened session rejects
layer −1 and token 99 without any state change. -/
theorem c10_load_guards_witness :
    ((-1 : ℤ) < 0 ∨ ((open_sd_model ⟨2, 2, 1, 1, 1, 2, 2⟩ bodyCex).config.n_layers : ℤ) ≤ -1) ∧
    load_layer_from_sd (open_sd_model ⟨2, 2, 1, 1, 1, 2, 2⟩ bodyCex) (-1)
      = (false, open_sd_model ⟨2, 2, 1, 1, 1, 2, 2⟩ bodyCex) ∧
    load_token_embedding (open_sd_model ⟨2, 2, 1, 1, 1, 2, 2⟩ bodyCex) 99
      = (false, open_sd_model ⟨2, 2, 1, 1, 1, 2, 2⟩ bodyCex) :=
  ⟨Or.inl (by decide),
   (c10_load_guards (open_sd_model ⟨2, 2, 1, 1, 1, 2, 2⟩ bodyCex) (-1) 99).1
     (Or.inr (Or.inr (Or.inl (by decide)))),
   (c10_load_guards (open_sd_model ⟨2, 2, 1, 1, 1, 2, 2⟩ bodyCex) (-1) 99).2
     (Or.inr (Or.inr (Or.inr (by decide))))⟩

/-- xorshift64* PRNG step (`random_u32`): the three shift-xor updates on
the 64-bit state followed by multiplication by the fixed odd constant,
keeping the top 32 bits. -/
def random_u32 (s : ℕ) : ℕ :=
  let s0 := s % 2 ^ 64
  let s1 := (s0 ^^^ (s0 >>> 12)) % 2 ^ 64
  let s2 := (s1 ^^^ (s1 <<< 25)) % 2 ^ 64
  let s3 := (s2 ^^^ (s2 >>> 27)) % 2 ^ 64
  s3 * 0x2545F4914F6CDD1D % 2 ^ 64 >>> 32

/-- `random_f32`: the top 24 bits scaled to `[0, 1)`. -/
def random_f32 (s : ℕ) : ℚ := ((random_u32 s >>> 8 : ℕ) : ℚ) / 16777216

/-- `sample_argmax`'s scan: running best index over `p[0..i]`, strict
`>` so the earliest maximum wins. -/
def argmaxGo (p : ℕ → ℚ) : ℕ → ℕ
  | 0 => 0
  | i + 1 => if p (i + 1) > p (argmaxGo p i) then i + 1 else argmaxGo p i

def sample_argmax (p : ℕ → ℚ) (n : ℕ) : ℕ := argmaxGo p (n - 1)

/-- `sample_mult`'s cumulative scan, written with explicit fuel; the C
loop runs at most `n` iterations, and the fuel is initialised to `n`, so
the `fuel = 0` case is exactly the loop running off the end and
returning `n − 1`. -/
def multGo (p : ℕ → ℚ) (coin : ℚ) (n : ℕ) : ℕ → ℕ → ℚ → ℕ
  | 0, _, _ => n - 1
  | fuel + 1, i, cdf =>
      let cdf1 := cdf + p i
      if coin < cdf1 then i else multGo p coin n fuel (i + 1) cdf1

def sample_mult (p : ℕ → ℚ) (n : ℕ) (coin : ℚ) : ℕ := multGo p coin n n 0 0

/-- The truncation scan of `sample_topp`: returns `(some last_idx, cum)`
at the first prefix whose cumulative probability exceeds `topp`, or
`(none, total)` when no prefix does. -/
def cutGo (topp : ℚ) : List (ℚ × ℕ) → ℕ → ℚ → Option ℕ × ℚ
  | [], _, cum => (none, cum)
  | e :: rest, i, cum =>
      let c := cum + e.1
      if c > topp then (some i, c) else cutGo topp rest (i + 1) c

/-- The final cumulative selection scan of `sample_topp` over the kept
prefix. -/
def selGo (r : ℚ) : List (ℚ × ℕ) → ℚ → Option ℕ
  | [], _ => none
  | e :: rest, cdf =>
      let c := cdf + e.1
      if r < c then some e.2 else selGo r rest c

/-- `sample_topp`: filter to candidates with probability `≥ cutoff`,
sort descending by probability, truncate at the first prefix whose
cumulative probability exceeds `topp`, rescale the draw by the truncated
mass, and select by cumulative scan.  The final fallback
`probindex[last_idx]` is an out-of-bounds read when the filter kept
nothing (`last_idx = −1`), modelled as `none`. -/
def sample_topp (p : ℕ → ℚ) (n : ℕ) (topp coin : ℚ) : Option ℕ :=
  let cutoff := (1 - topp) / ((n : ℚ) - 1)
  let pi0 := ((List.range n).filter (fun i => decide (cutoff ≤ p i))).map (fun i => (p i, i))
  let pi := pi0.mergeSort (fun a b => b.1 ≤ a.1)
  let cut := cutGo topp pi 0 0
  let lastIdx : ℤ := match cut.1 with
    | some i => (i : ℤ)
    | none => (pi.length : ℤ) - 1
  let r := coin * cut.2
  match selGo r (pi.take (lastIdx + 1).toNat) 0 with
  | some idx => some idx
  | none => (pi.get? lastIdx.toNat).map (fun e => e.2)

/-- `sample`: greedy argmax at zero temperature; otherwise scale the
logits, softmax in place (`softmax_sampling` is line-for-line the same
code as `softmax`), draw from the PRNG, and dispatch to plain
multinomial or nucleus sampling on the `topp` range check. -/
def sample (ops : Ops) (n : ℕ) (temperature topp : ℚ) (logits : ℕ → ℚ) (rng : ℕ) :
    Option ℕ :=
  if temperature = 0 then some (sample_argmax logits n)
  else
    let scaled : ℕ → ℚ := fun q => if q < n then logits q / temperature else logits q
    let probs := softmax ops scaled n
    let coin := random_f32 rng
    if topp ≤ 0 ∨ 1 ≤ topp then some (sample_mult probs n coin)
    else sample_topp probs n topp coin

/-- Claim C6 (code bug): sampling is not total.  With vocabulary size 2,
temperature 1, nucleus threshold 1/4 and the all-zero logits vector, the
softmax yields the uniform distribution (1/2, 1/2), both probabilities
fall below the cutoff `(1 − 1/4)/(2 − 1) = 3/4`, the filter keeps no
candidate, `last_idx` stays at `n0 − 1 = −1`, and the fallback
`return probindex[last_idx].index` reads `probindex[-1]` — outside the
candidate array (modelled as `none`), for every PRNG state.  The spec's
requirement that sampling always yields an index in `[0, n)` is the
intent (the other paths do fall back deterministically); this read is
the slip. -/
theorem c6_sample_topp_oob (rng : ℕ) : sample cexOps 2 1 (1/4) (fun _ => 0) rng = none := by
  norm_num [sample, sample_topp, softmax, maxTo, sumTo, cexOps, cutGo, selGo,
    List.range_succ, List.range_zero]

/-- Witness-style corollary at a fixed PRNG state. -/
theorem c6_sample_topp_oob_witness : sample cexOps 2 1 (1/4) (fun _ => 0) 42 = none :=
  c6_sample_topp_oob 42

theorem selGo_mem (r : ℚ) : ∀ (l : List (ℚ × ℕ)) (cdf : ℚ) (i : ℕ),
    selGo r l cdf = some i → ∃ e, e ∈ l ∧ e.2 = i := by
  intro l
  induction l with
  | nil => intro cdf i h; exact absurd h (by simp [selGo])
  | cons e rest ih =>
      intro cdf i h
      simp only [selGo] at h
      by_cases hc : r < cdf + e.1
      · rw [if_pos hc] at h
        exact ⟨e, List.mem_cons_self e rest, Option.some.inj h⟩
      · rw [if_neg hc] at h
        obtain ⟨e2, he2, hi⟩ := ih _ _ h
        exact ⟨e2, List.mem_cons_of_mem e he2, hi⟩

/-- Claim C9 (confirmed): `sample_topp` keeps exactly the candidates
with probability `≥ (1 − topp)/(n − 1)` and selects only among them:
whenever it returns an index at all, that index is in `[0, n)` and its
probability is at least the cutoff — in particular nucleus sampling
never selects a token below the computed cutoff. -/
theorem c9_topp_above_cutoff (p : ℕ → ℚ) (n : ℕ) (topp coin : ℚ) (i : ℕ)
    (hn : 2 ≤ n) (h0 : 0 < topp) (h1 : topp < 1)
    (hres : sample_topp p n topp coin = some i) :
    i < n ∧ (1 - topp) / ((n : ℚ) - 1) ≤ p i := by
  simp only [sample_topp] at hres
  have hmem : ∃ e, e ∈ (((List.range n).filter
      (fun j => decide ((1 - topp) / ((n : ℚ) - 1) ≤ p j))).map
        (fun j => (p j, j))).mergeSort (fun a b => b.1 ≤ a.1) ∧ e.2 = i := by
    rcases hsel : selGo _ _ 0 with _ | idx
    · rw [hsel] at hres
      simp only [Option.map_eq_some'] at hres
      obtain ⟨e, hget, hi⟩ := hres
      exact ⟨e, List.get?_mem hget, hi⟩
    · rw [hsel] at hres
      obtain ⟨e, he, hi⟩ := selGo_mem _ _ _ _ hsel
      exact ⟨e, List.mem_of_mem_take he, by rw [hi]; exact Option.some.inj hres⟩
  obtain ⟨e, hmem2, hei⟩ := hmem
  have hmem3 := (List.mergeSort_perm _ _).mem_iff.mp hmem2
  obtain ⟨j, hj, hje⟩ := List.mem_map.mp hmem3
  obtain ⟨hjr, hjf⟩ := List.mem_filter.mp hj
  have hji : j = i := by
    have := congrArg Prod.snd hje
    simp at this
    rw [← hei, ← this]
  subst hji
  refine ⟨List.mem_range.mp hjr, of_decide_eq_true hjf⟩

/-- Witness for `c9_topp_above_cutoff` at `n = 2`, probabilities
`(3/4, 1/4)`, `topp = 1/2`, draw 0: the sampler returns index 0, whose
probability 3/4 is above the cutoff 1/2. -/
theorem c9_topp_above_cutoff_witness :
    sample_topp (fun i => if i = 0 then 3/4 else 1/4) 2 (1/2) 0 = some 0 ∧
    (0 < 2 ∧ (1 - 1/2 : ℚ) / ((2 : ℚ) - 1) ≤ (fun i => if i = 0 then (3/4 : ℚ) else 1/4) 0) := by
  have hres : sample_topp (fun i => if i = 0 then (3/4 : ℚ) else 1/4) 2 (1/2) 0 = some 0 := by
    norm_num [sample_topp, cutGo, selGo, List.range_succ, List.range_zero]
  refine ⟨hres, ?_⟩
  have := c9_topp_above_cutoff (fun i => if i = 0 then (3/4 : ℚ) else 1/4) 2 (1/2) 0 0
    (by norm_num) (by norm_num) (by norm_num) hres
  exact ⟨this.1, this.2⟩

/-- Tokenizer vocabulary: pieces (byte strings) and scores, indexed by
token id.  Bytes are `ℕ` values `< 256`; C strings cannot contain the
NUL byte, so texts are byte lists with entries in `[1, 256)`. -/
structure Tok where
  pieces : List (List ℕ)
  scores : List ℚ

/-- `t->vocab[i]` (ids are C `int`s; out-of-range reads are modelled as
the empty string). -/
def pieceAt (t : Tok) (i : ℤ) : List ℕ :=
  if 0 ≤ i then t.pieces.getD i.toNat [] else []

def scoreAt (t : Tok) (i : ℤ) : ℚ :=
  if 0 ≤ i then t.scores.getD i.toNat 0 else 0

/-- The linear core of `str_lookup`: first index whose piece equals the
query, else −1.  (`str_lookup` in the source is `bsearch` over the
`qsort`-ed copy of the vocabulary; on a sorted copy its extensional
behaviour is exactly "some index whose string equals the query, or −1",
modelled as the first such index.) -/
def lookupGo (s : List ℕ) : List (List ℕ) → ℕ → ℤ
  | [], _ => -1
  | q :: rest, i => if q = s then (i : ℤ) else lookupGo s rest (i + 1)

def str_lookup (t : Tok) (s : List ℕ) : ℤ := lookupGo s t.pieces 0

/-- Is `c` a UTF-8 continuation byte (`(c & 0xC0) == 0x80`)? -/
def contByte (c : ℕ) : Bool := c &&& 0xC0 == 0x80

/-- The raw-byte fallback token id for byte `b`: `b + 3`. -/
def rawTokOf (b : ℕ) : ℤ := (b : ℤ) + 3

def contHead : List ℕ → Bool
  | [] => false
  | r :: _ => contByte r

/-- The byte/code-point scanning loop of `encode`: accumulate UTF-8
continuation bytes (a non-continuation byte restarts the buffer), and at
each code-point boundary (or when the buffer holds 4 bytes) look the
buffer up, emitting either the matched id or one raw-byte token
`byte + 3` per buffer byte. -/
def scanTok (t : Tok) : List ℕ → List ℕ → List ℤ
  | _, [] => []
  | buf, c :: rest =>
      let buf1 := (if contByte c then buf else []) ++ [c]
      if contHead rest ∧ buf1.length < 4 then
        scanTok t buf1 rest
      else
        (if str_lookup t buf1 ≠ -1 then [str_lookup t buf1]
         else buf1.map rawTokOf) ++ scanTok t [] rest

/-- The best-pair scan of the greedy BPE merge loop: walk adjacent
pairs, looking up the concatenation of their pieces and keeping the
strictly best score (ties keep the earliest pair).  The accumulator is
`(best_score, best_id, best_idx)` starting `(-1e10, -1, -1)`. -/
def bestGo (t : Tok) : List ℤ → ℕ → ℚ × ℤ × ℤ → ℚ × ℤ × ℤ
  | t0 :: t1 :: rest, i, acc =>
      let id := str_lookup t (pieceAt t t0 ++ pieceAt t t1)
      let acc1 := if id ≠ -1 ∧ scoreAt t id > acc.1 then (scoreAt t id, id, (i : ℤ)) else acc
      bestGo t (t1 :: rest) (i + 1) acc1
  | _, _, acc => acc

def bestMerge (t : Tok) (toks : List ℤ) : ℚ × ℤ × ℤ :=
  bestGo t toks 0 (-10000000000, -1, -1)

/-- Merge at `best_idx`: `tokens[best_idx] = best_id` and shift the
suffix left by one. -/
def applyMerge (toks : List ℤ) (idx : ℕ) (id : ℤ) : List ℤ :=
  toks.take idx ++ id :: toks.drop (idx + 2)

/-- The merge loop with explicit fuel.  Each iteration shortens the
token list by one, and the loop needs at least two tokens, so fuel equal
to the initial length can never be exhausted before `best_idx = -1`
terminates the loop; the fuel-0 case is unreachable. -/
def mergeN (t : Tok) : ℕ → List ℤ → List ℤ
  | 0, toks => toks
  | fuel + 1, toks =>
      let b := bestMerge t toks
      if b.2.2 < 0 then toks else mergeN t fuel (applyMerge toks b.2.2.toNat b.2.1)

/-- `encode`: optional BOS (id 1), the injected leading-space lookup for
non-empty text, the byte/code-point scan, the greedy merge loop, and an
optional EOS (id 2). -/
def encode (t : Tok) (text : List ℕ) (bos eos : Bool) : List ℤ :=
  let pre := (if bos then [(1 : ℤ)] else []) ++ (if text ≠ [] then [str_lookup t [32]] else [])
  let init := pre ++ scanTok t [] text
  let merged := mergeN t init.length init
  merged ++ (if eos then [(2 : ℤ)] else [])

/-- scanf whitespace, skipped by the `%02hhX` conversion. -/
def isSpaceByte (c : ℕ) : Bool := c == 32 || (decide (9 ≤ c) && decide (c ≤ 13))

def hexVal (c : ℕ) : Option ℕ :=
  if 48 ≤ c ∧ c ≤ 57 then some (c - 48)
  else if 65 ≤ c ∧ c ≤ 70 then some (c - 55)
  else if 97 ≤ c ∧ c ≤ 102 then some (c - 87)
  else none

def escTail : List ℕ → Option ℕ
  | [d1, g] => if g = 62 then hexVal d1 else none
  | [d1, d2, g] =>
      if g = 62 then
        match hexVal d1, hexVal d2 with
        | some a, some b => some (16 * a + b)
        | _, _ => none
      else none
  | _ => none

/-- Does the piece match `sscanf(piece, "<0x%02hhX>", &byte)`?  The
literal `<0x` prefix, optional scanf whitespace, one or two hex digits
(either case), then `>` and end of string. -/
def escByte : List ℕ → Option ℕ
  | c0 :: c1 :: c2 :: rest =>
      if c0 = 60 ∧ c1 = 48 ∧ c2 = 120 then escTail (rest.dropWhile isSpaceByte) else none
  | _ => none

/-- `decode`: the token's piece, with a leading space stripped right
after the BOS id, and raw-byte escape pieces mapped to their single
byte via `byte_pieces`. -/
def decode (t : Tok) (prev token : ℤ) : List ℕ :=
  let p0 := pieceAt t token
  let p := if prev = 1 ∧ p0.head? = some 32 then p0.drop 1 else p0
  match escByte p with
  | some b => [b]
  | none => p

/-- Decode a token sequence, threading each token as the next call's
`prev_token`, and concatenate the pieces. -/
def decodeAll (t : Tok) : ℤ → List ℤ → List ℕ
  | _, [] => []
  | prev, tok :: rest => decode t prev tok ++ decodeAll t tok rest

def hexU (d : ℕ) : ℕ := if d < 10 then 48 + d else 55 + d

/-- The raw-byte escape string `"<0x%02X>"` stored in the vocabulary for
byte `b` (two upper-case hex digits). -/
def escape2 (b : ℕ) : List ℕ := [60, 48, 120, hexU (b / 16), hexU (b % 16), 62]

/-- A small vocabulary containing the merge ladder
`"<0", "<0x", "<0x4", "<0x41", "<0x41>"`: ordinary merged tokens whose
final piece happens to match the raw-byte escape pattern. -/
def cexTok : Tok :=
  ⟨[[], [60, 115, 62], [60, 47, 115, 62], [32], [60], [48], [120], [52], [49], [62],
    [60, 48], [60, 48, 120], [60, 48, 120, 52], [60, 48, 120, 52, 49],
    [60, 48, 120, 52, 49, 62]],
   List.replicate 15 0⟩

/-- Claim C8, counterexample: for the text `"<0x41>"`, every byte of
which the vocabulary covers directly, greedy merging assembles the
single token with piece `"<0x41>"`, and decode maps that piece through
the raw-byte escape branch to the single byte `"A"` — the round trip
returns `"A"`, not `"<0x41>"`. -/
theorem c8_counterexample :
    (encode cexTok [60, 48, 120, 52, 49, 62] true false).head? = some 1 ∧
    decodeAll cexTok 1 ((encode cexTok [60, 48, 120, 52, 49, 62] true false).drop 1)
      ≠ [60, 48, 120, 52, 49, 62] := by
  constructor <;> decide

/-- Well-formedness of a standard vocabulary: at least the three control
tokens plus the 256 raw-byte entries; ids 3..258 hold exactly the
raw-byte escape strings; every later (regular) piece contains no `<`
byte (60); the control pieces are the conventional strings. -/
def WF (t : Tok) : Prop :=
  259 ≤ t.pieces.length ∧
  (∀ b : ℕ, b < 256 → pieceAt t ((b : ℤ) + 3) = escape2 b) ∧
  (∀ i : ℕ, 259 ≤ i → i < t.pieces.length → 60 ∉ pieceAt t (i : ℤ)) ∧
  pieceAt t 0 = [60, 117, 110, 107, 62] ∧
  pieceAt t 1 = [60, 115, 62] ∧
  pieceAt t 2 = [60, 47, 115, 62]

/-- A token id that can appear in an encoded sequence: either a raw-byte
token (holding its escape string) or a regular token whose piece is
nonempty and `<`-free. -/
def GoodTok (t : Tok) (tok : ℤ) : Prop :=
  (3 ≤ tok ∧ tok < 259 ∧ pieceAt t tok = escape2 (tok - 3).toNat) ∨
  (259 ≤ tok ∧ tok < (t.pieces.length : ℤ) ∧ 60 ∉ pieceAt t tok ∧ pieceAt t tok ≠ [])

/-- The byte string a token denotes after decode's escape substitution
(no BOS space-stripping). -/
def sem (t : Tok) (tok : ℤ) : List ℕ :=
  match escByte (pieceAt t tok) with
  | some b => [b]
  | none => pieceAt t tok

def semJoin (t : Tok) (ts : List ℤ) : List ℕ := (ts.map (sem t)).join

theorem lookupGo_spec (s : List ℕ) :
    ∀ (l : List (List ℕ)) (i : ℕ),
      lookupGo s l i = -1 ∨
      ∃ k, k < l.length ∧ lookupGo s l i = ((i + k : ℕ) : ℤ) ∧ l.getD k [] = s := by
  intro l
  induction l with
  | nil => intro i; exact Or.inl rfl
  | cons q rest ih =>
      intro i
      by_cases hq : q = s
      · refine Or.inr ⟨0, Nat.succ_pos _, ?_, hq⟩
        simp [lookupGo, hq]
      · rcases ih (i + 1) with h | ⟨k, hk, hval, hget⟩
        · left
          simpa [lookupGo, hq] using h
        · refine Or.inr ⟨k + 1, by simpa using Nat.succ_lt_succ hk, ?_, by simpa using hget⟩
          simp only [lookupGo, if_neg hq]
          rw [hval]
          congr 1
          omega

theorem str_lookup_found (t : Tok) (s : List ℕ) (h : str_lookup t s ≠ -1) :
    0 ≤ str_lookup t s ∧ str_lookup t s < (t.pieces.length : ℤ) ∧
      pieceAt t (str_lookup t s) = s := by
  rcases lookupGo_spec s t.pieces 0 with h0 | ⟨k, hk, hval, hget⟩
  · exact absurd h0 h
  · unfold str_lookup
    rw [hval]
    refine ⟨by omega, by simpa using hk, ?_⟩
    simp only [pieceAt, Nat.zero_add]
    rw [if_pos (by omega)]
    simpa using hget

theorem hexVal_hexU (d : ℕ) (hd : d < 16) : hexVal (hexU d) = some d := by
  by_cases h : d < 10
  · have he : hexU d = 48 + d := if_pos h
    rw [he]
    unfold hexVal
    rw [if_pos ⟨by omega, by omega⟩]
    congr 1
    omega
  · have he : hexU d = 55 + d := if_neg h
    rw [he]
    unfold hexVal
    rw [if_neg (by omega), if_pos ⟨by omega, by omega⟩]
    congr 1
    omega

theorem hexU_not_space (d : ℕ) (hd : d < 16) : isSpaceByte (hexU d) = false := by
  by_cases h : d < 10
  · have he : hexU d = 48 + d := if_pos h
    rw [he]
    simp only [isSpaceByte, Bool.or_eq_false_iff, Bool.and_eq_false_iff]
    constructor
    · simp [Nat.beq_eq_true_eq]
      omega
    · right
      simp
      omega
  · have he : hexU d = 55 + d := if_neg h
    rw [he]
    simp only [isSpaceByte, Bool.or_eq_false_iff, Bool.and_eq_false_iff]
    constructor
    · simp [Nat.beq_eq_true_eq]
      omega
    · right
      simp
      omega

theorem escape2_length (b : ℕ) : (escape2 b).length = 6 := rfl

theorem escape2_head : ∀ b, 60 ∈ escape2 b := fun b => List.mem_cons_self _ _

theorem escByte_escape2 (b : ℕ) (hb : b < 256) : escByte (escape2 b) = some b := by
  have hd1 : isSpaceByte (hexU (b / 16)) = false := hexU_not_space _ (by omega)
  have h1 : escByte (escape2 b)
      = escTail (List.dropWhile isSpaceByte [hexU (b / 16), hexU (b % 16), 62]) := by
    simp [escByte, escape2]
  have h2 : List.dropWhile isSpaceByte [hexU (b / 16), hexU (b % 16), 62]
      = [hexU (b / 16), hexU (b % 16), 62] := by
    rw [List.dropWhile_cons]
    simp [hd1]
  rw [h1, h2]
  show (if (62 : ℕ) = 62 then
          match hexVal (hexU (b / 16)), hexVal (hexU (b % 16)) with
          | some a, some c => some (16 * a + c)
          | _, _ => none
        else none) = some b
  rw [if_pos rfl, hexVal_hexU (b / 16) (by omega), hexVal_hexU (b % 16) (by omega)]
  simp only [Option.some.injEq]
  omega

theorem escByte_no60 (p : List ℕ) (h : 60 ∉ p) : escByte p = none := by
  rcases p with _ | ⟨c0, _ | ⟨c1, _ | ⟨c2, rest⟩⟩⟩
  · rfl
  · rfl
  · rfl
  · simp only [escByte]
    rw [if_neg]
    intro hc
    exact h (hc.1 ▸ List.mem_cons_self _ _)

theorem sem_raw (t : Tok) (tok : ℤ) (h259 : tok < 259)
    (hp : pieceAt t tok = escape2 (tok - 3).toNat) :
    sem t tok = [(tok - 3).toNat] := by
  unfold sem
  rw [hp, escByte_escape2 _ (by omega)]

theorem sem_reg (t : Tok) (tok : ℤ) (h : 60 ∉ pieceAt t tok) :
    sem t tok = pieceAt t tok := by
  unfold sem
  rw [escByte_no60 _ h]

theorem sem_good_ne_nil (t : Tok) (tok : ℤ) (hg : GoodTok t tok) : sem t tok ≠ [] := by
  rcases hg with ⟨h3, h259, hp⟩ | ⟨h259, hlen, h60, hne⟩
  · rw [sem_raw t tok h259 hp]
    exact List.cons_ne_nil _ _
  · rw [sem_reg t tok h60]
    exact hne

theorem semJoin_cons (t : Tok) (a : ℤ) (l : List ℤ) :
    semJoin t (a :: l) = sem t a ++ semJoin t l := by
  simp [semJoin]

theorem semJoin_append (t : Tok) (l1 l2 : List ℤ) :
    semJoin t (l1 ++ l2) = semJoin t l1 ++ semJoin t l2 := by
  simp [semJoin]

/-- Classification of a successful vocabulary lookup under `WF`: the hit
is a control token (and the query is that control string), a raw-byte
token (and the query is its escape string), or a regular token (and the
query contains no `<`). -/
theorem lookup_class (t : Tok) (hwf : WF t) (q : List ℕ) (hf : str_lookup t q ≠ -1) :
    (str_lookup t q < 3 ∧
      (q = [60, 117, 110, 107, 62] ∨ q = [60, 115, 62] ∨ q = [60, 47, 115, 62])) ∨
    (3 ≤ str_lookup t q ∧ str_lookup t q < 259 ∧ q = escape2 (str_lookup t q - 3).toNat) ∨
    (259 ≤ str_lookup t q ∧ str_lookup t q < (t.pieces.length : ℤ) ∧ 60 ∉ q) := by
  obtain ⟨hwl, hraw, hreg, h0, h1, h2⟩ := hwf
  obtain ⟨hge, hlt, hpq⟩ := str_lookup_found t q hf
  by_cases hc3 : str_lookup t q < 3
  · left
    refine ⟨hc3, ?_⟩
    have h012 : str_lookup t q = 0 ∨ str_lookup t q = 1 ∨ str_lookup t q = 2 := by omega
    rcases h012 with he | he | he
    · exact Or.inl (by rw [he, h0] at hpq; exact hpq.symm)
    · exact Or.inr (Or.inl (by rw [he, h1] at hpq; exact hpq.symm))
    · exact Or.inr (Or.inr (by rw [he, h2] at hpq; exact hpq.symm))
  · by_cases hc259 : str_lookup t q < 259
    · right; left
      refine ⟨by omega, hc259, ?_⟩
      have hb : (str_lookup t q - 3).toNat < 256 := by omega
      have := hraw (str_lookup t q - 3).toNat hb
      rw [show ((str_lookup t q - 3).toNat : ℤ) + 3 = str_lookup t q by omega] at this
      rw [this] at hpq
      exact hpq.symm
    · right; right
      refine ⟨by omega, hlt, ?_⟩
      have hi : (259 : ℕ) ≤ (str_lookup t q).toNat := by omega
      have hi2 : (str_lookup t q).toNat < t.pieces.length := by omega
      have := hreg (str_lookup t q).toNat hi hi2
      rw [show (((str_lookup t q).toNat : ℕ) : ℤ) = str_lookup t q by omega] at this
      rw [hpq] at this
      exact this

/-- A successful lookup of a scan buffer (at most 4 bytes, all bytes
after the first being continuation bytes) is always a regular token
whose `sem` is the buffer itself. -/
theorem scan_lookup_good (t : Tok) (hwf : WF t) (q : List ℕ) (hlen : q.length ≤ 4)
    (htail : ∀ b ∈ q.drop 1, contByte b = true) (hne : q ≠ [])
    (hf : str_lookup t q ≠ -1) :
    GoodTok t (str_lookup t q) ∧ sem t (str_lookup t q) = q := by
  obtain ⟨hge, hlt, hpq⟩ := str_lookup_found t q hf
  rcases lookup_class t hwf q hf with ⟨_, hq | hq | hq⟩ | ⟨_, _, hq⟩ | ⟨h259, hlt2, h60⟩
  · rw [hq] at hlen
    simp at hlen
  · exfalso
    have h115 : (115 : ℕ) ∈ q.drop 1 := by rw [hq]; simp
    exact absurd (htail 115 h115) (by decide)
  · exfalso
    have h47 : (47 : ℕ) ∈ q.drop 1 := by rw [hq]; simp
    exact absurd (htail 47 h47) (by decide)
  · rw [hq, escape2_length] at hlen
    omega
  · have h60p : 60 ∉ pieceAt t (str_lookup t q) := by rw [hpq]; exact h60
    refine ⟨Or.inr ⟨h259, hlt2, h60p, by rw [hpq]; exact hne⟩, ?_⟩
    · rw [sem_reg t _ h60p, hpq]

/-- A successful lookup of a `<`-free nonempty query is a regular token
whose `sem` is the query. -/
theorem lookup_no60_good (t : Tok) (hwf : WF t) (q : List ℕ) (h60 : 60 ∉ q) (hne : q ≠ [])
    (hf : str_lookup t q ≠ -1) :
    GoodTok t (str_lookup t q) ∧ sem t (str_lookup t q) = q := by
  obtain ⟨hge, hlt, hpq⟩ := str_lookup_found t q hf
  rcases lookup_class t hwf q hf with ⟨_, hq | hq | hq⟩ | ⟨_, _, hq⟩ | ⟨h259, hlt2, _⟩
  · exact absurd (by rw [hq]; simp : (60 : ℕ) ∈ q) h60
  · exact absurd (by rw [hq]; simp : (60 : ℕ) ∈ q) h60
  · exact absurd (by rw [hq]; simp : (60 : ℕ) ∈ q) h60
  · exact absurd (hq ▸ escape2_head _) h60
  · have h60p : 60 ∉ pieceAt t (str_lookup t q) := by rw [hpq]; exact h60
    refine ⟨Or.inr ⟨h259, hlt2, h60p, by rw [hpq]; exact hne⟩, ?_⟩
    rw [sem_reg t _ h60p, hpq]

/-- No vocabulary entry matches a query that contains `<` and has length
at least 7 (longer than any escape string or control token). -/
theorem lookup_long60_none (t : Tok) (hwf : WF t) (q : List ℕ) (h60 : 60 ∈ q)
    (hlen : 7 ≤ q.length) : str_lookup t q = -1 := by
  by_contra hf
  rcases lookup_class t hwf q hf with ⟨_, hq | hq | hq⟩ | ⟨_, _, hq⟩ | ⟨_, _, h60n⟩
  · rw [hq] at hlen; simp at hlen
  · rw [hq] at hlen; simp at hlen
  · rw [hq] at hlen; simp at hlen
  · rw [hq, escape2_length] at hlen; omega
  · exact h60n h60

/-- The BOS token's piece concatenated with any nonempty piece is never
in the vocabulary. -/
theorem lookup_bos_pair (t : Tok) (hwf : WF t) (p2 : List ℕ) (hne : p2 ≠ []) :
    str_lookup t ([60, 115, 62] ++ p2) = -1 := by
  by_contra hf
  rcases lookup_class t hwf _ hf with ⟨_, hq | hq | hq⟩ | ⟨_, _, hq⟩ | ⟨_, _, h60n⟩
  · simp at hq
  · have := congrArg List.length hq
    simp only [List.length_append, List.length_cons, List.length_nil] at this
    exact hne (List.eq_nil_of_length_eq_zero (by omega))
  · simp at hq
  · have := congrArg (fun l => l.get? 1) hq
    simp [escape2] at this
  · exact h60n (by simp)

theorem semJoin_fallback (t : Tok) (hwf : WF t) (q : List ℕ) (hb : ∀ b ∈ q, b < 256) :
    semJoin t (q.map rawTokOf) = q ∧
      ∀ tok ∈ q.map rawTokOf, GoodTok t tok := by
  induction q with
  | nil => exact ⟨rfl, by simp⟩
  | cons b rest ih =>
      obtain ⟨hs, hg⟩ := ih (fun x hx => hb x (List.mem_cons_of_mem b hx))
      have hblt : b < 256 := hb b (List.mem_cons_self _ _)
      have hpiece : pieceAt t (rawTokOf b) = escape2 ((rawTokOf b - 3).toNat) := by
        simp only [rawTokOf]
        rw [show ((b : ℤ) + 3 - 3).toNat = b by omega]
        exact hwf.2.1 b hblt
      have hgood : GoodTok t (rawTokOf b) :=
        Or.inl ⟨by simp only [rawTokOf]; omega, by simp only [rawTokOf]; omega, hpiece⟩
      have hsem : sem t (rawTokOf b) = [b] := by
        rw [sem_raw t _ (by simp only [rawTokOf]; omega) hpiece]
        simp only [rawTokOf]
        congr 1
        omega
      constructor
      · rw [List.map_cons, semJoin_cons, hsem, hs]
        rfl
      · intro tok htok
        rcases List.mem_cons.mp htok with he | hm
        · rw [he]; exact hgood
        · exact hg tok hm

theorem scanTok_spec (t : Tok) (hwf : WF t) :
    ∀ (rest buf : List ℕ),
      (∀ b ∈ rest, 0 < b ∧ b < 256) →
      buf.length ≤ 3 →
      (∀ b ∈ buf, 0 < b ∧ b < 256) →
      (∀ b ∈ buf.drop 1, contByte b = true) →
      (buf ≠ [] → contHead rest = true) →
      (∀ tok ∈ scanTok t buf rest, GoodTok t tok) ∧
        semJoin t (scanTok t buf rest) = buf ++ rest := by
  intro rest
  induction rest with
  | nil =>
      intro buf _ _ _ _ hbe
      have hbuf : buf = [] := by
        by_contra hne
        have := hbe hne
        simp [contHead] at this
      subst hbuf
      exact ⟨by simp [scanTok], by simp [scanTok, semJoin]⟩
  | cons c rest ih =>
      intro buf hbytes hlen hbb htail hbe
      have hc : 0 < c ∧ c < 256 := hbytes c (List.mem_cons_self _ _)
      have hrestb : ∀ b ∈ rest, 0 < b ∧ b < 256 :=
        fun b hb => hbytes b (List.mem_cons_of_mem c hb)
      have hbuf1 : (if contByte c then buf else []) ++ [c] = buf ++ [c] := by
        by_cases hb : buf = []
        · subst hb; cases contByte c <;> simp
        · have hcb := hbe hb
          simp only [contHead] at hcb
          rw [if_pos hcb]
      have hb1tail : ∀ b ∈ (buf ++ [c]).drop 1, contByte b = true := by
        intro b hbm
        cases buf with
        | nil => simp at hbm
        | cons b0 bs =>
            have hcb := hbe (by simp)
            simp only [contHead] at hcb
            simp only [List.cons_append, List.drop_succ_cons, List.drop_zero] at hbm
            rcases List.mem_append.mp hbm with h | h
            · exact htail b (by simpa using h)
            · simp at h
              subst h
              exact hcb
      have hb1bytes : ∀ b ∈ buf ++ [c], 0 < b ∧ b < 256 := by
        intro b hbm
        rcases List.mem_append.mp hbm with h | h
        · exact hbb b h
        · simp at h
          subst h
          exact hc
      simp only [scanTok, hbuf1]
      by_cases hcond : contHead rest = true ∧ (buf ++ [c]).length < 4
      · rw [if_pos hcond, List.append_cons buf c rest]
        refine ih (buf ++ [c]) hrestb ?_ hb1bytes hb1tail (fun _ => hcond.1)
        have := hcond.2
        simp only [List.length_append, List.length_cons, List.length_nil] at this ⊢
        omega
      · rw [if_neg hcond]
        have hrec := ih [] hrestb (by simp) (by simp) (by simp) (fun h => absurd rfl h)
        have hlen4 : (buf ++ [c]).length ≤ 4 := by
          simp only [List.length_append, List.length_cons, List.length_nil]
          omega
        have hne : buf ++ [c] ≠ [] := by simp
        have hemitGood : ∀ tok ∈ (if str_lookup t (buf ++ [c]) ≠ -1
            then [str_lookup t (buf ++ [c])] else (buf ++ [c]).map rawTokOf), GoodTok t tok := by
          by_cases hf : str_lookup t (buf ++ [c]) ≠ -1
          · rw [if_pos hf]
            intro tok htok
            simp at htok
            subst htok
            exact (scan_lookup_good t hwf _ hlen4 hb1tail hne hf).1
          · rw [if_neg hf]
            exact (semJoin_fallback t hwf _ (fun b hb2 => (hb1bytes b hb2).2)).2
        have hemitSem : semJoin t (if str_lookup t (buf ++ [c]) ≠ -1
            then [str_lookup t (buf ++ [c])] else (buf ++ [c]).map rawTokOf) = buf ++ [c] := by
          by_cases hf : str_lookup t (buf ++ [c]) ≠ -1
          · rw [if_pos hf]
            have := (scan_lookup_good t hwf _ hlen4 hb1tail hne hf).2
            simp [semJoin, this]
          · rw [if_neg hf]
            exact (semJoin_fallback t hwf _ (fun b hb2 => (hb1bytes b hb2).2)).1
        constructor
        · intro tok htok
          rcases List.mem_append.mp htok with hm | hm
          · exact hemitGood tok hm
          · exact hrec.1 tok hm
        · rw [semJoin_append, hemitSem, hrec.2]
          simp

theorem good_piece_ne_nil (t : Tok) (tok : ℤ) (hg : GoodTok t tok) : pieceAt t tok ≠ [] := by
  rcases hg with ⟨_, _, hp⟩ | ⟨_, _, _, hne⟩
  · rw [hp]
    exact List.cons_ne_nil _ _
  · exact hne

theorem good_ne_one (t : Tok) (tok : ℤ) (hg : GoodTok t tok) : tok ≠ 1 := by
  rcases hg with ⟨h3, _, _⟩ | ⟨h259, _, _, _⟩ <;> omega

theorem bestGo_spec (t : Tok) (Φ : ℚ × ℤ × ℤ → Prop) :
    ∀ (l : List ℤ) (i : ℕ) (acc : ℚ × ℤ × ℤ),
      Φ acc →
      (∀ k a b, l.get? k = some a → l.get? (k + 1) = some b →
        str_lookup t (pieceAt t a ++ pieceAt t b) ≠ -1 →
        Φ (scoreAt t (str_lookup t (pieceAt t a ++ pieceAt t b)),
           str_lookup t (pieceAt t a ++ pieceAt t b), ((i + k : ℕ) : ℤ))) →
      Φ (bestGo t l i acc) := by
  intro l
  induction l with
  | nil => exact fun i acc hacc _ => hacc
  | cons t0 rest ih =>
      intro i acc hacc hcand
      cases rest with
      | nil => exact hacc
      | cons t1 rest2 =>
          simp only [bestGo]
          apply ih (i + 1)
          · by_cases hcnd : str_lookup t (pieceAt t t0 ++ pieceAt t t1) ≠ -1 ∧
                scoreAt t (str_lookup t (pieceAt t t0 ++ pieceAt t t1)) > acc.1
            · rw [if_pos hcnd]
              have := hcand 0 t0 t1 rfl rfl hcnd.1
              simpa using this
            · rw [if_neg hcnd]
              exact hacc
          · intro k a b hga hgb hf
            have := hcand (k + 1) a b (by simpa using hga) (by simpa using hgb) hf
            rw [show ((i + 1) + k : ℕ) = (i + (k + 1) : ℕ) by omega]
            exact this

/-- What a non-negative `best_idx` from `bestMerge` guarantees: it names
an adjacent pair whose concatenated pieces are in the vocabulary, and
`best_id` is that lookup. -/
def ValidBest (t : Tok) (toks : List ℤ) (acc : ℚ × ℤ × ℤ) : Prop :=
  acc.2.2 < 0 ∨ ∃ (k : ℕ) (a b : ℤ), acc.2.2 = (k : ℤ) ∧ toks.get? k = some a ∧
    toks.get? (k + 1) = some b ∧
    acc.2.1 = str_lookup t (pieceAt t a ++ pieceAt t b) ∧
    str_lookup t (pieceAt t a ++ pieceAt t b) ≠ -1

theorem bestMerge_valid (t : Tok) (toks : List ℤ) : ValidBest t toks (bestMerge t toks) := by
  refine bestGo_spec t (ValidBest t toks) toks 0 _ (Or.inl (by norm_num)) ?_
  intro k a b hga hgb hf
  exact Or.inr ⟨k, a, b, by simp, hga, hgb, rfl, hf⟩

theorem merge_good (t : Tok) (hwf : WF t) (a b : ℤ)
    (ha : GoodTok t a) (hb : GoodTok t b)
    (hf : str_lookup t (pieceAt t a ++ pieceAt t b) ≠ -1) :
    GoodTok t (str_lookup t (pieceAt t a ++ pieceAt t b)) ∧
      sem t (str_lookup t (pieceAt t a ++ pieceAt t b)) = sem t a ++ sem t b := by
  have hbne : pieceAt t b ≠ [] := good_piece_ne_nil t b hb
  have hane : pieceAt t a ≠ [] := good_piece_ne_nil t a ha
  rcases ha with ⟨ha3, ha259, hap⟩ | ⟨ha259, halt, ha60, _⟩
  · exfalso
    have h60 : (60 : ℕ) ∈ pieceAt t a ++ pieceAt t b := by
      rw [hap]
      exact List.mem_append_left _ (escape2_head _)
    have hlen : 7 ≤ (pieceAt t a ++ pieceAt t b).length := by
      rw [List.length_append, hap, escape2_length]
      have : 0 < (pieceAt t b).length := List.length_pos.mpr hbne
      omega
    exact hf (lookup_long60_none t hwf _ h60 hlen)
  · rcases hb with ⟨hb3, hb259, hbp⟩ | ⟨hb259, hblt, hb60, _⟩
    · exfalso
      have h60 : (60 : ℕ) ∈ pieceAt t a ++ pieceAt t b := by
        rw [hbp]
        exact List.mem_append_right _ (escape2_head _)
      have hlen : 7 ≤ (pieceAt t a ++ pieceAt t b).length := by
        rw [List.length_append, hbp, escape2_length]
        have : 0 < (pieceAt t a).length := List.length_pos.mpr hane
        omega
      exact hf (lookup_long60_none t hwf _ h60 hlen)
    · have h60 : (60 : ℕ) ∉ pieceAt t a ++ pieceAt t b := by
        intro hm
        rcases List.mem_append.mp hm with hm | hm
        · exact ha60 hm
        · exact hb60 hm
      have hne : pieceAt t a ++ pieceAt t b ≠ [] := by
        intro hc
        exact hane (List.append_eq_nil.mp hc).1
      obtain ⟨hg, hsem⟩ := lookup_no60_good t hwf _ h60 hne hf
      refine ⟨hg, ?_⟩
      rw [hsem, sem_reg t a ha60, sem_reg t b hb60]

theorem list_decomp {ts : List ℤ} {k : ℕ} {a b : ℤ}
    (ha : ts.get? k = some a) (hb : ts.get? (k + 1) = some b) :
    ts = ts.take k ++ a :: b :: ts.drop (k + 2) := by
  obtain ⟨hlt, hget⟩ := List.get?_eq_some.mp ha
  obtain ⟨hlt2, hget2⟩ := List.get?_eq_some.mp hb
  have h1 : ts.drop k = a :: ts.drop (k + 1) := by
    rw [List.drop_eq_get_cons hlt, hget]
  have h2 : ts.drop (k + 1) = b :: ts.drop (k + 2) := by
    rw [List.drop_eq_get_cons hlt2, hget2]
  conv_lhs => rw [← List.take_append_drop k ts]
  rw [h1, h2]


theorem semJoin_applyMerge (t : Tok) {ts : List ℤ} {k : ℕ} {a b : ℤ} (id : ℤ)
    (ha : ts.get? k = some a) (hb : ts.get? (k + 1) = some b)
    (hsem : sem t id = sem t a ++ sem t b) :
    semJoin t (applyMerge ts k id) = semJoin t ts := by
  rw [show applyMerge ts k id = ts.take k ++ id :: ts.drop (k + 2) from rfl]
  rw [semJoin_append, semJoin_cons, hsem]
  conv_rhs => rw [list_decomp ha hb]
  rw [semJoin_append, semJoin_cons, semJoin_cons]
  simp [List.append_assoc]

theorem good_applyMerge (t : Tok) (ts : List ℤ) (k : ℕ) (id : ℤ)
    (hg : ∀ tok ∈ ts, GoodTok t tok) (hid : GoodTok t id) :
    ∀ tok ∈ applyMerge ts k id, GoodTok t tok := by
  intro tok htok
  rcases List.mem_append.mp htok with hm | hm
  · exact hg tok (List.mem_of_mem_take hm)
  · rcases List.mem_cons.mp hm with he | hm2
    · rw [he]; exact hid
    · exact hg tok (List.mem_of_mem_drop hm2)

theorem applyMerge_cons (x : ℤ) (ts : List ℤ) (k : ℕ) (id : ℤ) :
    applyMerge (x :: ts) (k + 1) id = x :: applyMerge ts k id := by
  show (x :: ts).take (k + 1) ++ id :: (x :: ts).drop (k + 1 + 2)
      = x :: (ts.take k ++ id :: ts.drop (k + 2))
  rw [List.take_succ_cons, show k + 1 + 2 = (k + 2) + 1 from rfl, List.drop_succ_cons]
  rfl

/-- One iteration of the merge loop on a BOS-headed token list: a
non-negative `best_idx` never names the BOS pair (its piece `"<s>"`
concatenated with anything is not in the vocabulary), so the merge
happens inside the tail, and it preserves goodness, the decoded byte
string, and the leading-space head of the first tail piece. -/
theorem merge_step (t : Tok) (hwf : WF t) (ts : List ℤ)
    (hgood : ∀ tok ∈ ts, GoodTok t tok)
    (hhead : ∃ d rest', ts = d :: rest' ∧ (pieceAt t d).head? = some 32)
    (hbneg : ¬ (bestMerge t (1 :: ts)).2.2 < 0) :
    ∃ k : ℕ,
      applyMerge (1 :: ts) (bestMerge t (1 :: ts)).2.2.toNat (bestMerge t (1 :: ts)).2.1
        = 1 :: applyMerge ts k (bestMerge t (1 :: ts)).2.1 ∧
      (∀ tok ∈ applyMerge ts k (bestMerge t (1 :: ts)).2.1, GoodTok t tok) ∧
      semJoin t (applyMerge ts k (bestMerge t (1 :: ts)).2.1) = semJoin t ts ∧
      (∃ d2 rest2, applyMerge ts k (bestMerge t (1 :: ts)).2.1 = d2 :: rest2 ∧
        (pieceAt t d2).head? = some 32) := by
  rcases bestMerge_valid t (1 :: ts) with hneg | ⟨k0, a, b, hidx, hga, hgb, hid, hf⟩
  · exact absurd hneg hbneg
  rcases k0 with _ | k
  · exfalso
    have haeq : a = 1 := by simpa using hga.symm
    subst haeq
    have hbmem : b ∈ ts := List.get?_mem (by simpa using hgb)
    have hbne : pieceAt t b ≠ [] := good_piece_ne_nil t b (hgood b hbmem)
    rw [hwf.2.2.2.2.1] at hf
    exact hf (lookup_bos_pair t hwf _ hbne)
  · have hga2 : ts.get? k = some a := by simpa using hga
    have hgb2 : ts.get? (k + 1) = some b := by simpa using hgb
    have hgoa : GoodTok t a := hgood a (List.get?_mem hga2)
    have hgob : GoodTok t b := hgood b (List.get?_mem hgb2)
    obtain ⟨hgid, hsemid⟩ := merge_good t hwf a b hgoa hgob hf
    have htn : (bestMerge t (1 :: ts)).2.2.toNat = k + 1 := by omega
    refine ⟨k, ?_, ?_, ?_, ?_⟩
    · rw [htn, applyMerge_cons]
    · exact good_applyMerge t ts k _ hgood (hid ▸ hgid)
    · exact semJoin_applyMerge t _ hga2 hgb2 (by rw [hid]; exact hsemid)
    · obtain ⟨d, rest', hts, hd32⟩ := hhead
      rcases k with _ | k'
      · have hda : a = d := by
          rw [hts] at hga2
          simpa using hga2.symm
        obtain ⟨tl, htl⟩ : ∃ tl, pieceAt t d = 32 :: tl := by
          cases hpc : pieceAt t d with
          | nil => rw [hpc] at hd32; simp at hd32
          | cons x xs =>
              rw [hpc] at hd32
              simp only [List.head?_cons, Option.some.injEq] at hd32
              exact ⟨xs, by rw [hd32]⟩
        have hpid : pieceAt t (bestMerge t (1 :: ts)).2.1 = pieceAt t a ++ pieceAt t b := by
          rw [hid]
          exact (str_lookup_found t _ hf).2.2
        refine ⟨(bestMerge t (1 :: ts)).2.1, ts.drop 2, ?_, ?_⟩
        · show ts.take 0 ++ (bestMerge t (1 :: ts)).2.1 :: ts.drop 2
              = (bestMerge t (1 :: ts)).2.1 :: ts.drop 2
          rfl
        · rw [hpid, hda, htl]
          rfl
      · rw [hts, applyMerge_cons]
        exact ⟨d, _, rfl, hd32⟩

/-- The merge loop preserves, for any fuel, the BOS head, the goodness
of the tail tokens, the decoded byte string of the tail, and the leading
space of the first tail piece. -/
theorem mergeN_inv (t : Tok) (hwf : WF t) :
    ∀ (fuel : ℕ) (ts : List ℤ),
      (∀ tok ∈ ts, GoodTok t tok) →
      (∃ d rest', ts = d :: rest' ∧ (pieceAt t d).head? = some 32) →
      ∃ ts2, mergeN t fuel (1 :: ts) = 1 :: ts2 ∧
        (∀ tok ∈ ts2, GoodTok t tok) ∧
        semJoin t ts2 = semJoin t ts ∧
        (∃ d2 rest2, ts2 = d2 :: rest2 ∧ (pieceAt t d2).head? = some 32) := by
  intro fuel
  induction fuel with
  | zero => exact fun ts hg hh => ⟨ts, rfl, hg, rfl, hh⟩
  | succ fuel ih =>
      intro ts hg hh
      simp only [mergeN]
      by_cases hneg : (bestMerge t (1 :: ts)).2.2 < 0
      · rw [if_pos hneg]
        exact ⟨ts, rfl, hg, rfl, hh⟩
      · rw [if_neg hneg]
        obtain ⟨k, hshape, hg2, hsem2, hh2⟩ := merge_step t hwf ts hg hh hneg
        rw [hshape]
        obtain ⟨ts3, hm3, hg3, hsem3, hh3⟩ := ih _ hg2 hh2
        exact ⟨ts3, hm3, hg3, hsem3.trans hsem2, hh3⟩

theorem decode_noStrip (t : Tok) (prev tok : ℤ) (hprev : prev ≠ 1) :
    decode t prev tok = sem t tok := by
  simp only [decode, sem]
  rw [if_neg (fun hc => hprev hc.1)]

theorem decodeAll_sem (t : Tok) :
    ∀ (ts : List ℤ) (prev : ℤ), (∀ tok ∈ ts, GoodTok t tok) → prev ≠ 1 →
      decodeAll t prev ts = semJoin t ts := by
  intro ts
  induction ts with
  | nil => exact fun prev _ _ => rfl
  | cons tok rest ih =>
      intro prev hg hprev
      have hgt := hg tok (List.mem_cons_self _ _)
      rw [show decodeAll t prev (tok :: rest) = decode t prev tok ++ decodeAll t tok rest
            from rfl,
          decode_noStrip t prev tok hprev, semJoin_cons,
          ih tok (fun x hx => hg x (List.mem_cons_of_mem _ hx)) (good_ne_one t tok hgt)]

/-- Decoding right after BOS strips the leading space of a good token's
piece and substitutes no escape (a good space-headed piece is regular
and `<`-free). -/
theorem decode_first (t : Tok) (d : ℤ) (hg : GoodTok t d)
    (hh : (pieceAt t d).head? = some 32) :
    ∃ tl, pieceAt t d = 32 :: tl ∧ decode t 1 d = tl ∧ sem t d = 32 :: tl := by
  rcases hg with ⟨h3, h259, hp⟩ | ⟨h259, hlt, h60, hne⟩
  · rw [hp] at hh
    simp [escape2] at hh
  · obtain ⟨tl, htl⟩ : ∃ tl, pieceAt t d = 32 :: tl := by
      cases hpc : pieceAt t d with
      | nil => rw [hpc] at hh; simp at hh
      | cons x xs =>
          rw [hpc] at hh
          simp only [List.head?_cons, Option.some.injEq] at hh
          exact ⟨xs, by rw [hh]⟩
    refine ⟨tl, htl, ?_, ?_⟩
    · simp only [decode]
      rw [if_pos ⟨by norm_num, hh⟩]
      have h60tl : 60 ∉ (pieceAt t d).drop 1 := fun hm => h60 (List.mem_of_mem_drop hm)
      rw [escByte_no60 _ h60tl]
      show (pieceAt t d).drop 1 = tl
      rw [htl]
      rfl
    · rw [sem_reg t d h60, htl]

/-- Claim C8, amended: over a well-formed vocabulary — one whose raw-byte
entries 3..258 hold exactly the `"<0x%02X>"` escape strings, whose
regular pieces contain no `<` byte, and whose ids 0..2 are the standard
control tokens — encoding any nonempty byte string (bytes in 1..255,
with a BOS and the dummy leading space whose lookup must succeed) and
decoding the result after the BOS returns exactly the original bytes. -/
theorem c8_amended (t : Tok) (text : List ℕ) (hwf : WF t)
    (htext : text ≠ []) (hbytes : ∀ b ∈ text, 0 < b ∧ b < 256)
    (hsp : str_lookup t [32] ≠ -1) :
    (encode t text true false).head? = some 1 ∧
    decodeAll t 1 ((encode t text true false).drop 1) = text := by
  have hF : encode t text true false
      = mergeN t (1 :: str_lookup t [32] :: scanTok t [] text).length
          (1 :: str_lookup t [32] :: scanTok t [] text) := by
    simp [encode, htext]
  have hdg := lookup_no60_good t hwf [32] (by decide) (by decide) hsp
  have hdp : pieceAt t (str_lookup t [32]) = [32] := (str_lookup_found t [32] hsp).2.2
  obtain ⟨hscg, hscs⟩ := scanTok_spec t hwf text [] hbytes (by simp) (by simp) (by simp)
    (fun h => absurd rfl h)
  have hg0 : ∀ tok ∈ str_lookup t [32] :: scanTok t [] text, GoodTok t tok := by
    intro tok htok
    rcases List.mem_cons.mp htok with he | hm
    · rw [he]; exact hdg.1
    · exact hscg tok hm
  have hh0 : ∃ d rest', str_lookup t [32] :: scanTok t [] text = d :: rest' ∧
      (pieceAt t d).head? = some 32 :=
    ⟨str_lookup t [32], scanTok t [] text, rfl, by rw [hdp]; rfl⟩
  obtain ⟨ts2, hm, hg2, hsem2, d2, rest2, hts2, hh2⟩ := mergeN_inv t hwf
    (1 :: str_lookup t [32] :: scanTok t [] text).length _ hg0 hh0
  rw [hF, hm]
  refine ⟨rfl, ?_⟩
  show decodeAll t 1 ts2 = text
  have hgd2 : GoodTok t d2 := hg2 d2 (by rw [hts2]; exact List.mem_cons_self _ _)
  obtain ⟨tl, htl, hdec1, hsemd⟩ := decode_first t d2 hgd2 hh2
  have hrest : decodeAll t d2 rest2 = semJoin t rest2 :=
    decodeAll_sem t rest2 d2 (fun x hx => hg2 x (by rw [hts2]; exact List.mem_cons_of_mem _ hx))
      (good_ne_one t d2 hgd2)
  have hsemts : semJoin t ts2 = 32 :: text := by
    rw [hsem2, semJoin_cons, hdg.2, hscs]
    rfl
  rw [hts2, semJoin_cons, hsemd] at hsemts
  have htail : tl ++ semJoin t rest2 = text := by
    have h := hsemts
    rw [List.cons_append] at h
    injection h
  rw [hts2]
  show decode t 1 d2 ++ decodeAll t d2 rest2 = text
  rw [hdec1, hrest, htail]

/-- A concrete well-formed 261-entry vocabulary: the three control
tokens, the 256 raw-byte escape strings, then the regular pieces
`" "` and `"a"`. -/
def wTok : Tok :=
  ⟨[[60, 117, 110, 107, 62], [60, 115, 62], [60, 47, 115, 62]]
      ++ (List.range 256).map escape2 ++ [[32], [97]],
   List.replicate 261 0⟩

set_option maxRecDepth 100000

theorem wTok_wf : WF wTok := by
  refine ⟨by decide, by decide, ?_, by decide, by decide, by decide⟩
  intro i h1 h2
  have hlen : wTok.pieces.length = 261 := by decide
  rw [hlen] at h2
  interval_cases i <;> decide

/-- Witness for the amended C8 at the vocabulary `wTok` and the text
`"a"`. -/
theorem c8_amended_witness :
    (encode wTok [97] true false).head? = some 1 ∧
    decodeAll wTok 1 ((encode wTok [97] true false).drop 1) = [97] :=
  c8_amended wTok [97] wTok_wf (by decide) (by decide) (by decide)
